import Mathlib

/-!
Verification of the stash content-addressed object serializer.

Bytes are modelled as `Nat` (all produced values are < 256), blobs as `List Nat`.
The Python value graph is modelled by the mutual inductive `Obj`, where every
object carries the identity (`id`) that the Rust code observes through
`obj.as_ptr()`; aliasing `x = [1,2,3]; v = [x, x]` is the tree in which the same
subtree appears twice with the same `id`.

Two serializers coexist in the source and are both modelled:
 * `stash.rs` (`Serialize::serialize` / `Serialize::serialize_chunk` /
   `Serialize::to_py`), used by `db/nil.rs` (`hash`), `db/sled.rs` and
   `db/lsm_tree.rs` — modelled by `serStash` / `serStashChunk` / `serStashToPy`.
 * `serialize.rs` (`serialize` / `serialize_chunk` with the TRAVERSE envelope and
   the trailing back-reference number stream), used by `db/ram.rs`, `db/fsdb.rs`
   and `db/pydb.rs` — modelled by `serRsChunk` / `serRsTop`.

The deserializer of `deserialize.rs` is modelled by `deserializeChunk` /
`deserializeTop` (fuel-indexed, because it recurses into blobs fetched from the
store, which is not structurally decreasing).
-/

namespace Stash

abbrev Blob := List Nat

/-! ## Tag alphabet

Translated from `mod token` in `src/stash.rs`.  The crate-level `token` module
used by `serialize.rs`/`deserialize.rs` is not in `src/`; the 15-tag alphabet is
fixed by the spec (§3) and by `stash.rs`.  `TRAVERSE` and `REF` do not occur in
the spec's alphabet, so they are modelled (from the spec's fixed-alphabet rule)
as fresh values outside it; no claim depends on their numeric values. -/

namespace token

def INT : Nat := 1
def BYTES : Nat := 2
def STRING : Nat := 3
def FLOAT : Nat := 4
def LIST : Nat := 5
def TUPLE : Nat := 6
def SET : Nat := 7
def FROZENSET : Nat := 8
def DICT : Nat := 9
def NONE : Nat := 10
def TRUE : Nat := 11
def FALSE : Nat := 12
def BYTEARRAY : Nat := 13
def REDUCE : Nat := 14
def GLOBAL : Nat := 15

/-- Modelled from the spec: `TRAVERSE` marks the root envelope written by
`serialize.rs`; it is not part of the fixed 15-tag alphabet of §3. -/
def TRAVERSE : Nat := 16

/-- Modelled from the spec: `REF` is the in-stream back-reference marker read by
`deserialize.rs`; it is not part of the fixed 15-tag alphabet of §3. -/
def REF : Nat := 17

end token

/-! ## Integer codec

Translated from `struct Int` in `src/stash.rs` (lines 34-74).  `write_to` calls
Python's `int.bit_length` and `int.to_bytes(1 + n/8, byteorder="big",
signed=True)`; `read_from` calls `int.from_bytes(byteorder="big", signed=True)`.
The Python primitives are modelled arithmetically below. -/

/-- Number of binary digits of `m`, computed with `fuel ≥ m` so that the
recursion is structural (and therefore kernel-evaluable). -/
def bitLenAux : (fuel : Nat) → (m : Nat) → Nat
  | 0, _ => 0
  | fuel + 1, m => if m = 0 then 0 else bitLenAux fuel (m / 2) + 1

/-- Python `int.bit_length`: number of bits needed for the absolute value. -/
def bitLength (n : Int) : Nat :=
  bitLenAux n.natAbs n.natAbs

/-- Big-endian base-256 digits of `m`, padded/truncated to exactly `len` bytes
(the behaviour of Python `int.to_bytes` on the two's-complement residue). -/
def toBytesBE : (len : Nat) → (m : Nat) → List Nat
  | 0, _ => []
  | len + 1, m => toBytesBE len (m / 256) ++ [m % 256]

/-- Python `int.to_bytes(length, byteorder="big", signed=True)`: the byte string
of the two's-complement residue `n mod 2^(8·length)`.  (Python raises
`OverflowError` when `n` does not fit; `Int::write_to` always passes a length
that fits, which the round-trip proof below establishes.) -/
def pyToBytes (n : Int) (len : Nat) : List Nat :=
  toBytesBE len (n % (2 ^ (8 * len) : Nat)).toNat

/-- Python `int.from_bytes(b, byteorder="big", signed=True)`. -/
def pyFromBytes (b : List Nat) : Int :=
  let u : Nat := b.foldl (fun a x => a * 256 + x) 0
  if b.length = 0 then 0
  else if u < 2 ^ (8 * b.length - 1) then (u : Int)
  else (u : Int) - (2 ^ (8 * b.length) : Nat)

/-- `Int::write_to` from `src/stash.rs`: the bytes appended to the output
vector for the integer `obj`. -/
def intWriteTo (n : Int) : List Nat :=
  let neg := n < 0
  let nbits := if ¬neg then bitLength n else bitLength (n + 1)
  if neg ∨ 0 < nbits then pyToBytes n (1 + nbits / 8) else []

/-- `Int::read_from` from `src/stash.rs`. -/
def intReadFrom (b : List Nat) : Int :=
  pyFromBytes b

/-! ## Lexicographic byte-string order

Rust `Vec<Vec<u8>>::sort()` sorts by the `Ord` instance of `Vec<u8>`, which is
lexicographic with the proper prefix ordered first.  `lexLe` is that total
order; the serializer models `chunks.sort()` by a stable insertion sort with
respect to it. -/

def lexLe : List Nat → List Nat → Bool
  | [], _ => true
  | _ :: _, [] => false
  | a :: as_, b :: bs => if a < b then true else if b < a then false else lexLe as_ bs

/-- Rust `chunks.sort()` on byte strings. -/
def sortChunks (l : List Blob) : List Blob :=
  l.insertionSort (fun a b => lexLe a b = true)

/-! ## The Python value graph

Shallow embedding of the host values the serializer dispatches on
(`downcast_exact` chain in `stash.rs` lines 108-203 / `serialize.rs` lines
116-253).  Every object carries the identity the Rust code reads with
`obj.as_ptr()`.  Function, type and reducer-handled objects are omitted: their
encoding queries the host runtime (module registry, `copyreg.dispatch_table`),
which has no shallow embedding; no claim depends on them.  A float object
carries the 8 bytes of `f64::to_le_bytes`. -/

mutual
inductive Obj : Type
  | pstr (id : Nat) (s : List Nat)
  | pbytearray (id : Nat) (b : List Nat)
  | pbytes (id : Nat) (b : List Nat)
  | pint (id : Nat) (n : Int)
  | pfloat (id : Nat) (bits : List Nat)
  | plist (id : Nat) (xs : ObjList)
  | ptuple (id : Nat) (xs : ObjList)
  | pset (id : Nat) (xs : ObjList)
  | pfrozenset (id : Nat) (xs : ObjList)
  | pdict (id : Nat) (xs : ObjPairs)
  | pnone (id : Nat)
  | ptrue (id : Nat)
  | pfalse (id : Nat)
  deriving DecidableEq
inductive ObjList : Type
  | nil
  | cons (hd : Obj) (tl : ObjList)
  deriving DecidableEq
inductive ObjPairs : Type
  | nil
  | cons (k v : Obj) (tl : ObjPairs)
  deriving DecidableEq
end

/-- The identity observed by `obj.as_ptr()`. -/
def Obj.ptr : Obj → Nat
  | .pstr i _ | .pbytearray i _ | .pbytes i _ | .pint i _ | .pfloat i _
  | .plist i _ | .ptuple i _ | .pset i _ | .pfrozenset i _ | .pdict i _
  | .pnone i | .ptrue i | .pfalse i => i

def ObjList.toList : ObjList → List Obj
  | .nil => []
  | .cons h t => h :: t.toList

def ObjPairs.toList : ObjPairs → List (Obj × Obj)
  | .nil => []
  | .cons k v t => (k, v) :: t.toList

mutual
/-- All subobjects of an object, itself included. -/
def Obj.subObjs : Obj → List Obj
  | .plist i xs => .plist i xs :: xs.subObjs
  | .ptuple i xs => .ptuple i xs :: xs.subObjs
  | .pset i xs => .pset i xs :: xs.subObjs
  | .pfrozenset i xs => .pfrozenset i xs :: xs.subObjs
  | .pdict i xs => .pdict i xs :: xs.subObjs
  | o => [o]
def ObjList.subObjs : ObjList → List Obj
  | .nil => []
  | .cons h t => h.subObjs ++ t.subObjs
def ObjPairs.subObjs : ObjPairs → List Obj
  | .nil => []
  | .cons k v t => k.subObjs ++ v.subObjs ++ t.subObjs
end

/-- Well-formedness of a value graph rendered as a tree: the identity
`obj.as_ptr()` determines the object, exactly as in the host runtime (two
occurrences of one pointer are occurrences of one object). -/
def WFObj (root : Obj) : Prop :=
  ∀ a ∈ root.subObjs, ∀ b ∈ root.subObjs, a.ptr = b.ptr → a = b

instance (root : Obj) : Decidable (WFObj root) := by
  unfold WFObj; infer_instance

/-! ## Key generator

`keygen.rs` is not under `src/`.  Modelled from the spec (§4.1): an abstract
deterministic digest of fixed width `NBYTES` (default instantiation BLAKE3-256,
`NBYTES = 32`).  All definitions take the digest function `dg` as a parameter;
`dg0` below is a concrete 32-byte-wide instantiation, injective on the short
blobs used in witnesses, standing in for the collision-resistant hash. -/

def NBYTES : Nat := 32

/-- Concrete stand-in digest for witnesses: the first 31 bytes, zero-padded,
followed by the length mod 256.  Fixed width 32; injective on blobs shorter
than 32 bytes. -/
def dg0 (b : Blob) : Blob :=
  (b.take 31 ++ List.replicate (31 - b.length) 0) ++ [b.length % 256]

/-! ## Mapping models

`mapping.rs` is not under `src/`; the trait contract is modelled from the spec
(§4.2, §6): `put_blob(bytes) → Key | Collision | IoError` and `get_blob(Key) →
bytes | NotFound | IoError`.  Concrete stores: `Ram` translated from
`db/ram.rs`, `Nil` from `db/nil.rs`, and the trusting insert of
`db/sled.rs`/`db/lsm_tree.rs`. -/

inductive MapErr : Type
  | collision (key : Blob)
  | notFound (key : Blob)
  deriving DecidableEq

/-- A mapping (blob store) model: state type `σ` plus the `put_blob`
operation.  (`get_blob` is only needed by the deserializer and is modelled
separately for the Ram store.) -/
structure MapOps (σ : Type) where
  putBlob : σ → Blob → Except MapErr (Blob × σ)

/-- Association-list lookup used by the Ram model. -/
def alookup : List (Blob × Blob) → Blob → Option Blob
  | [], _ => none
  | (k, v) :: t, key => if k = key then some v else alookup t key

abbrev RamSt := List (Blob × Blob)

/-- `Ram::put_blob` from `db/ram.rs`: digest the bytes; an occupied entry with
different content is a `Collision`, an occupied entry with equal content is a
no-op, a vacant entry is filled. -/
def ramPut (dg : Blob → Blob) (st : RamSt) (b : Blob) : Except MapErr (Blob × RamSt) :=
  let h := dg b
  match alookup st h with
  | some existing => if existing ≠ b then .error (.collision h) else .ok (h, st)
  | none => .ok (h, st ++ [(h, b)])

/-- `Ram::get_blob` from `db/ram.rs`. -/
def ramGet (st : RamSt) (h : Blob) : Except MapErr Blob :=
  match alookup st h with
  | some v => .ok v
  | none => .error (.notFound h)

def ramM (dg : Blob → Blob) : MapOps RamSt :=
  ⟨ramPut dg⟩

/-- `Nil::put_blob` from `db/nil.rs`: return the digest without persisting. -/
def nilM (dg : Blob → Blob) : MapOps Unit :=
  ⟨fun s b => .ok (dg b, s)⟩

/-- The hash-trusting insert of `db/sled.rs` / `db/lsm_tree.rs`: overwrite
unconditionally, never fail. -/
def trustM (dg : Blob → Blob) : MapOps RamSt :=
  ⟨fun s b => .ok (dg b, s ++ [(dg b, b)])⟩

/-! ## Variable-length integer encoding for the back-reference stream

`usize.rs` (`usize::encode`) is not under `src/`.  Modelled from the spec of
the trailing stream ("variable-length-encoded integers"): LEB128, little-endian
7-bit groups with a continuation bit.  No claim depends on the choice beyond
`encode 0 = [0]` and determinism. -/

def usizeEncodeAux : (fuel : Nat) → Nat → List Nat
  | 0, n => [n % 128]
  | fuel + 1, n => if n < 128 then [n] else (n % 128 + 128) :: usizeEncodeAux fuel (n / 128)

/-- Modelled from the spec: `usize::encode`, LEB128. -/
def usizeEncode (n : Nat) : List Nat :=
  usizeEncodeAux n n

/-! ## The canonical blob of a value

`pureSer` is the state-free characterization of the blob the stash serializer
produces for a value: children are framed as one length byte plus the inline
blob when the blob fits 255 bytes, and as `0x00` plus the digest otherwise;
SET/FROZENSET/DICT child chunks are sorted byte-lexicographically.  The
refinement theorems below prove that the effectful `serStash` (with its `seen`
table and store) computes exactly this function. -/

mutual
def pureSer (dg : Blob → Blob) : Obj → Blob
  | .pstr _ s => token.STRING :: s
  | .pbytearray _ b => token.BYTEARRAY :: b
  | .pbytes _ b => token.BYTES :: b
  | .pint _ n => token.INT :: intWriteTo n
  | .pfloat _ bits => token.FLOAT :: bits
  | .plist _ xs => token.LIST :: pureSeq dg xs
  | .ptuple _ xs => token.TUPLE :: pureSeq dg xs
  | .pset _ xs => token.SET :: (sortChunks (pureChunksOf dg xs)).flatten
  | .pfrozenset _ xs => token.FROZENSET :: (sortChunks (pureChunksOf dg xs)).flatten
  | .pdict _ xs => token.DICT :: (sortChunks (purePairChunksOf dg xs)).flatten
  | .pnone _ => [token.NONE]
  | .ptrue _ => [token.TRUE]
  | .pfalse _ => [token.FALSE]
termination_by structural o => o

def pureSeq (dg : Blob → Blob) : ObjList → Blob
  | .nil => []
  | .cons h t =>
      (let b := pureSer dg h
       if b.length ≤ 255 then b.length :: b else 0 :: dg b) ++ pureSeq dg t
termination_by structural xs => xs

def pureChunksOf (dg : Blob → Blob) : ObjList → List Blob
  | .nil => []
  | .cons h t =>
      (let b := pureSer dg h
       if b.length ≤ 255 then b.length :: b else 0 :: dg b) :: pureChunksOf dg t
termination_by structural xs => xs

def purePairChunksOf (dg : Blob → Blob) : ObjPairs → List Blob
  | .nil => []
  | .cons k v t =>
      ((let b := pureSer dg k
        if b.length ≤ 255 then b.length :: b else 0 :: dg b) ++
       (let b := pureSer dg v
        if b.length ≤ 255 then b.length :: b else 0 :: dg b)) :: purePairChunksOf dg t
termination_by structural xs => xs
end

/-- The chunk frame for one child (spec §3: `L ∈ [1,255]` inline, `L = 0` hash
reference). -/
def pureChunk (dg : Blob → Blob) (o : Obj) : Blob :=
  let b := pureSer dg o
  if b.length ≤ 255 then b.length :: b else 0 :: dg b

/-! ## The stash serializer (`src/stash.rs`, `Serialize`)

State: the `seen` table mapping `obj.as_ptr()` to the key assigned on
promotion (the `Bound` clone retained alongside it in the source only keeps the
identity alive and is dropped here), plus the store.  `serialize_chunk` is
inlined at the three call shapes (sequence, set-chunk list, dict-pair list) so
that the recursion is structural; `serStashChunk` below is the stand-alone
translation of `Serialize::serialize_chunk` and agrees definitionally with the
inlined copies (`serStashSeq_cons` etc.). -/

structure SerSt (σ : Type) where
  seen : List (Nat × Blob)
  db : σ

def seenLookup : List (Nat × Blob) → Nat → Option Blob
  | [], _ => none
  | (p, k) :: t, ptr => if p = ptr then some k else seenLookup t ptr

mutual
/-- `Serialize::serialize` from `src/stash.rs` (lines 106-205). -/
def serStash {σ : Type} (M : MapOps σ) : Obj → SerSt σ → Except MapErr (Blob × SerSt σ)
  | .pstr _ s, st => .ok (token.STRING :: s, st)
  | .pbytearray _ b, st => .ok (token.BYTEARRAY :: b, st)
  | .pbytes _ b, st => .ok (token.BYTES :: b, st)
  | .pint _ n, st => .ok (token.INT :: intWriteTo n, st)
  | .pfloat _ bits, st => .ok (token.FLOAT :: bits, st)
  | .plist _ xs, st => serStashSeq M xs [token.LIST] st
  | .ptuple _ xs, st => serStashSeq M xs [token.TUPLE] st
  | .pset _ xs, st => do
      let (cs, st') ← serStashChunksOf M xs st
      .ok (token.SET :: (sortChunks cs).flatten, st')
  | .pfrozenset _ xs, st => do
      let (cs, st') ← serStashChunksOf M xs st
      .ok (token.FROZENSET :: (sortChunks cs).flatten, st')
  | .pdict _ xs, st => do
      let (cs, st') ← serStashPairChunksOf M xs st
      .ok (token.DICT :: (sortChunks cs).flatten, st')
  | .pnone _, st => .ok ([token.NONE], st)
  | .ptrue _, st => .ok ([token.TRUE], st)
  | .pfalse _, st => .ok ([token.FALSE], st)
termination_by structural o => o

/-- The LIST/TUPLE iteration `for item in l { v = self.serialize_chunk(v, &item, db)? }`. -/
def serStashSeq {σ : Type} (M : MapOps σ) :
    ObjList → Blob → SerSt σ → Except MapErr (Blob × SerSt σ)
  | .nil, v, st => .ok (v, st)
  | .cons h t, v, st =>
    match seenLookup st.seen h.ptr with
    | some hsh => serStashSeq M t (v ++ 0 :: hsh) st
    | none => do
        let (b, st') ← serStash M h st
        if b.length ≤ 255 then serStashSeq M t (v ++ b.length :: b) st'
        else do
          let (k, db') ← M.putBlob st'.db b
          serStashSeq M t (v ++ 0 :: k) ⟨(h.ptr, k) :: st'.seen, db'⟩
termination_by structural xs => xs

/-- The SET/FROZENSET iteration collecting one chunk per element into a fresh
vector (`self.serialize_chunk(Vec::with_capacity(256), &item, db)`). -/
def serStashChunksOf {σ : Type} (M : MapOps σ) :
    ObjList → SerSt σ → Except MapErr (List Blob × SerSt σ)
  | .nil, st => .ok ([], st)
  | .cons h t, st => do
    let (c, st') ←
      (match seenLookup st.seen h.ptr with
       | some hsh => .ok ((0 :: hsh : Blob), st)
       | none => do
          let (b, st') ← serStash M h st
          if b.length ≤ 255 then .ok (b.length :: b, st')
          else do
            let (k, db') ← M.putBlob st'.db b
            .ok (0 :: k, (⟨(h.ptr, k) :: st'.seen, db'⟩ : SerSt σ)) :
        Except MapErr (Blob × SerSt σ))
    let (cs, st'') ← serStashChunksOf M t st'
    .ok (c :: cs, st'')
termination_by structural xs => xs

/-- The DICT iteration: each key-value pair forms one concatenated chunk. -/
def serStashPairChunksOf {σ : Type} (M : MapOps σ) :
    ObjPairs → SerSt σ → Except MapErr (List Blob × SerSt σ)
  | .nil, st => .ok ([], st)
  | .cons kobj vobj t, st => do
    let (ck, st1) ←
      (match seenLookup st.seen kobj.ptr with
       | some hsh => .ok ((0 :: hsh : Blob), st)
       | none => do
          let (b, st') ← serStash M kobj st
          if b.length ≤ 255 then .ok (b.length :: b, st')
          else do
            let (k, db') ← M.putBlob st'.db b
            .ok (0 :: k, (⟨(kobj.ptr, k) :: st'.seen, db'⟩ : SerSt σ)) :
        Except MapErr (Blob × SerSt σ))
    let (cv, st2) ←
      (match seenLookup st1.seen vobj.ptr with
       | some hsh => .ok ((0 :: hsh : Blob), st1)
       | none => do
          let (b, st') ← serStash M vobj st1
          if b.length ≤ 255 then .ok (b.length :: b, st')
          else do
            let (k, db') ← M.putBlob st'.db b
            .ok (0 :: k, (⟨(vobj.ptr, k) :: st'.seen, db'⟩ : SerSt σ)) :
        Except MapErr (Blob × SerSt σ))
    let (cs, st3) ← serStashPairChunksOf M t st2
    .ok ((ck ++ cv) :: cs, st3)
termination_by structural xs => xs
end

/-- `Serialize::serialize_chunk` from `src/stash.rs` (lines 206-228): if the
identity is in `seen`, emit `0x00` plus the stored key; else encode; inline
when the blob fits one length byte, else promote via `put_blob`, emit the key
and record the identity. -/
def serStashChunk {σ : Type} (M : MapOps σ) (o : Obj) (st : SerSt σ) :
    Except MapErr (Blob × SerSt σ) :=
  match seenLookup st.seen o.ptr with
  | some hsh => .ok (0 :: hsh, st)
  | none => do
      let (b, st') ← serStash M o st
      if b.length ≤ 255 then .ok (b.length :: b, st')
      else do
        let (k, db') ← M.putBlob st'.db b
        .ok (0 :: k, ⟨(o.ptr, k) :: st'.seen, db'⟩)

/-- `Serialize::to_py` from `src/stash.rs`: serialize against a fresh context,
promote the root blob, return its key (paired here with the final store). -/
def serStashToPy {σ : Type} (M : MapOps σ) (o : Obj) (db : σ) :
    Except MapErr (Blob × σ) := do
  let (b, st') ← serStash M o ⟨[], db⟩
  let (k, db') ← M.putBlob st'.db b
  .ok (k, db')

/-- `hash` from `src/db/nil.rs`: serialize against the Nil store. -/
def hashNil (dg : Blob → Blob) (o : Obj) : Except MapErr Blob :=
  (serStashToPy (nilM dg) o ()).map (·.1)

/-! ## The TRAVERSE serializer (`src/serialize.rs`)

State carried by one dump: the back-reference bookkeeping `br` (the number
stream `br.0` and the pointer-to-index map `br.1`), the `seen` table of
promoted objects, and the store.  `backrefs : Option<&mut …>` is modelled by
the flag `bra`: when a repeated object is found the flag is dropped for its
subtree (`backrefs = None`), matching lines 93-105 of the source.  The
in-place length-byte placeholder (`v.push(0)` … `v[n-1] = l`) is modelled by
computing the body bytes and prepending the frame. -/

structure RsSt (σ : Type) where
  br : List Nat
  brMap : List (Nat × Nat)
  seen : List (Nat × Blob)
  db : σ

def brLookup : List (Nat × Nat) → Nat → Option Nat
  | [], _ => none
  | (p, e) :: t, ptr => if p = ptr then some e else brLookup t ptr

/-- Stable sort of indexed chunks, Rust `chunks.sort_by(|(_, a), (_, b)| a.cmp(b))`. -/
def sortChunksIdx (l : List (Nat × Blob)) : List (Nat × Blob) :=
  l.insertionSort (fun a b => lexLe a.2 b.2 = true)

/-- Write the sorted positions into the reserved slots:
`for (j, (i, chunk)) in chunks.iter().enumerate() { br.0[n + i] = j }`. -/
def setSlots (br : List Nat) (n : Nat) : (sorted : List (Nat × Blob)) → (j : Nat) → List Nat
  | [], _ => br
  | (i, _) :: t, j => setSlots (br.set (n + i) j) n t (j + 1)

mutual
/-- `serialize_chunk` from `src/serialize.rs` (lines 83-299): back-reference
bookkeeping, `seen` lookup, kind dispatch, then inline-or-promote framing. -/
def serRsChunk {σ : Type} (M : MapOps σ) (bra : Bool) (o : Obj) (st : RsSt σ) :
    Except MapErr (Blob × RsSt σ) :=
  let bst :=
    if bra then
      let n := st.brMap.length
      match brLookup st.brMap o.ptr with
      | some e => (false, { st with br := st.br ++ [n - e] })
      | none => (true, { st with brMap := (o.ptr, n) :: st.brMap, br := st.br ++ [0] })
    else (false, st)
  let bra' := bst.1
  let st0 := bst.2
  match seenLookup st0.seen o.ptr with
  | some hsh => .ok (0 :: hsh, st0)
  | none => do
    let (b, st1) ←
      (match o with
       | .pstr _ s => .ok (token.STRING :: s, st0)
       | .pbytearray _ bs => .ok (token.BYTEARRAY :: bs, st0)
       | .pbytes _ bs => .ok (token.BYTES :: bs, st0)
       | .pint _ n => .ok (token.INT :: intWriteTo n, st0)
       | .pfloat _ bits => .ok (token.FLOAT :: bits, st0)
       | .plist _ xs => serRsSeq M bra' xs [token.LIST] st0
       | .ptuple _ xs => serRsSeq M bra' xs [token.TUPLE] st0
       | .pset _ xs =>
         if bra' then do
           let n := st0.br.length
           let st0a := { st0 with br := st0.br ++ List.replicate xs.toList.length 0 }
           let (cs, st') ← serRsChunksIdx M xs 0 st0a
           let sorted := sortChunksIdx cs
           .ok (token.SET :: (sorted.map (·.2)).flatten,
                { st' with br := setSlots st'.br n sorted 0 })
         else do
           let (cs, st') ← serRsChunks M xs st0
           .ok (token.SET :: (sortChunks cs).flatten, st')
       | .pfrozenset _ xs =>
         if bra' then do
           let n := st0.br.length
           let st0a := { st0 with br := st0.br ++ List.replicate xs.toList.length 0 }
           let (cs, st') ← serRsChunksIdx M xs 0 st0a
           let sorted := sortChunksIdx cs
           .ok (token.FROZENSET :: (sorted.map (·.2)).flatten,
                { st' with br := setSlots st'.br n sorted 0 })
         else do
           let (cs, st') ← serRsChunks M xs st0
           .ok (token.FROZENSET :: (sortChunks cs).flatten, st')
       | .pdict _ xs =>
         if bra' then do
           let n := st0.br.length
           let st0a := { st0 with br := st0.br ++ List.replicate xs.toList.length 0 }
           let (cs, st') ← serRsPairChunksIdx M xs 0 st0a
           let sorted := sortChunksIdx cs
           .ok (token.DICT :: (sorted.map (·.2)).flatten,
                { st' with br := setSlots st'.br n sorted 0 })
         else do
           let (cs, st') ← serRsPairChunks M xs st0
           .ok (token.DICT :: (sortChunks cs).flatten, st')
       | .pnone _ => .ok ([token.NONE], st0)
       | .ptrue _ => .ok ([token.TRUE], st0)
       | .pfalse _ => .ok ([token.FALSE], st0) : Except MapErr (Blob × RsSt σ))
    if b.length ≤ 255 then .ok (b.length :: b, st1)
    else do
      let (k, db') ← M.putBlob st1.db b
      .ok (0 :: k, { st1 with seen := (o.ptr, k) :: st1.seen, db := db' })
termination_by structural o

/-- LIST/TUPLE iteration of `serialize.rs`: children chunks appended in order. -/
def serRsSeq {σ : Type} (M : MapOps σ) (bra : Bool) :
    ObjList → Blob → RsSt σ → Except MapErr (Blob × RsSt σ)
  | .nil, v, st => .ok (v, st)
  | .cons h t, v, st => do
      let (c, st') ← serRsChunk M bra h st
      serRsSeq M bra t (v ++ c) st'
termination_by structural xs => xs

/-- Indexed chunk collection `for (i, item) in s.iter().enumerate()`, with
back-references active. -/
def serRsChunksIdx {σ : Type} (M : MapOps σ) :
    ObjList → Nat → RsSt σ → Except MapErr (List (Nat × Blob) × RsSt σ)
  | .nil, _, st => .ok ([], st)
  | .cons h t, i, st => do
      let (c, st') ← serRsChunk M true h st
      let (cs, st'') ← serRsChunksIdx M t (i + 1) st'
      .ok ((i, c) :: cs, st'')
termination_by structural xs => xs

/-- Chunk collection with back-references inactive. -/
def serRsChunks {σ : Type} (M : MapOps σ) :
    ObjList → RsSt σ → Except MapErr (List Blob × RsSt σ)
  | .nil, st => .ok ([], st)
  | .cons h t, st => do
      let (c, st') ← serRsChunk M false h st
      let (cs, st'') ← serRsChunks M t st'
      .ok (c :: cs, st'')
termination_by structural xs => xs

/-- DICT pair chunks with back-references active (key chunk then value chunk
into one buffer, one reserved slot per pair). -/
def serRsPairChunksIdx {σ : Type} (M : MapOps σ) :
    ObjPairs → Nat → RsSt σ → Except MapErr (List (Nat × Blob) × RsSt σ)
  | .nil, _, st => .ok ([], st)
  | .cons k v t, i, st => do
      let (ck, st1) ← serRsChunk M true k st
      let (cv, st2) ← serRsChunk M true v st1
      let (cs, st3) ← serRsPairChunksIdx M t (i + 1) st2
      .ok ((i, ck ++ cv) :: cs, st3)
termination_by structural xs => xs

/-- DICT pair chunks with back-references inactive. -/
def serRsPairChunks {σ : Type} (M : MapOps σ) :
    ObjPairs → RsSt σ → Except MapErr (List Blob × RsSt σ)
  | .nil, st => .ok ([], st)
  | .cons k v t, st => do
      let (ck, st1) ← serRsChunk M false k st
      let (cv, st2) ← serRsChunk M false v st1
      let (cs, st3) ← serRsPairChunks M t st2
      .ok ((ck ++ cv) :: cs, st3)
termination_by structural xs => xs
end

/-- `serialize` from `src/serialize.rs` (lines 13-35): TRAVERSE envelope, root
chunk, trailing stream of variable-length-encoded back-reference numbers,
`put_blob` of the whole vector.  Returns the stored root blob, its key and the
final store. -/
def serRsTop {σ : Type} (M : MapOps σ) (o : Obj) (db : σ) :
    Except MapErr (Blob × Blob × σ) := do
  let (c, st') ← serRsChunk M true o ⟨[], [], [], db⟩
  let v := token.TRAVERSE :: c ++ (st'.br.map usizeEncode).flatten
  let (k, db') ← M.putBlob st'.db v
  .ok (v, k, db')

/-- `PyRam::hash` from `db/ram.rs` (lines 66-68): dump through `serialize.rs`
into the RAM store, returning the key. -/
def pyRamHash (dg : Blob → Blob) (o : Obj) (st : RamSt) : Except MapErr (Blob × RamSt) :=
  (serRsTop (ramM dg) o st).map (fun r => (r.2.1, r.2.2))

/-! ## UTF-8 validation

Model of `std::str::from_utf8`'s validity check (RFC 3629): ASCII, the
two/three/four byte sequences with their continuation ranges, excluding
overlong forms and surrogates. -/

def utf8Cont (b : Nat) : Bool := 0x80 ≤ b ∧ b ≤ 0xBF

def utf8Valid : List Nat → Bool
  | [] => true
  | b :: rest =>
    if b ≤ 0x7F then utf8Valid rest
    else if 0xC2 ≤ b ∧ b ≤ 0xDF then
      match rest with
      | c1 :: rest' => utf8Cont c1 && utf8Valid rest'
      | [] => false
    else if b = 0xE0 then
      match rest with
      | c1 :: c2 :: rest' => (0xA0 ≤ c1 ∧ c1 ≤ 0xBF : Bool) && utf8Cont c2 && utf8Valid rest'
      | _ => false
    else if (0xE1 ≤ b ∧ b ≤ 0xEC) ∨ b = 0xEE ∨ b = 0xEF then
      match rest with
      | c1 :: c2 :: rest' => utf8Cont c1 && utf8Cont c2 && utf8Valid rest'
      | _ => false
    else if b = 0xED then
      match rest with
      | c1 :: c2 :: rest' => (0x80 ≤ c1 ∧ c1 ≤ 0x9F : Bool) && utf8Cont c2 && utf8Valid rest'
      | _ => false
    else if b = 0xF0 then
      match rest with
      | c1 :: c2 :: c3 :: rest' =>
          (0x90 ≤ c1 ∧ c1 ≤ 0xBF : Bool) && utf8Cont c2 && utf8Cont c3 && utf8Valid rest'
      | _ => false
    else if 0xF1 ≤ b ∧ b ≤ 0xF3 then
      match rest with
      | c1 :: c2 :: c3 :: rest' => utf8Cont c1 && utf8Cont c2 && utf8Cont c3 && utf8Valid rest'
      | _ => false
    else if b = 0xF4 then
      match rest with
      | c1 :: c2 :: c3 :: rest' =>
          (0x80 ≤ c1 ∧ c1 ≤ 0x8F : Bool) && utf8Cont c2 && utf8Cont c3 && utf8Valid rest'
      | _ => false
    else false

/-! ## The deserializer (`src/deserialize.rs`)

The result of a call is either a value, an ordinary error return (`exc`: a
`PyResult::Err` such as the `PyTypeError` for an unknown tag or the `?`
conversions of UTF-8 / slice-length failures), a store error (`mapE`), or
`crash` — a Rust panic: `split_at` with an out-of-range index, `Vec` indexing
out of bounds, or an `expect` call.  `fuelOut` is the modelling artefact for
exhausted fuel and is never produced when the fuel exceeds the reference
depth.

Deserialized values are modelled by `DVal`.  GLOBAL is kept symbolic (the
source imports the named module attribute; the host runtime is outside the
embedding) and for REDUCE the constructor call and state assignment are kept
symbolic as `dreduced`.  Set and dict insertion order is kept as parsed. -/

inductive DVal : Type
  | dbytes (b : List Nat)
  | dbytearray (b : List Nat)
  | dstr (s : List Nat)
  | dint (n : Int)
  | dfloat (bits : List Nat)
  | dlist (xs : List DVal)
  | dtuple (xs : List DVal)
  | dset (xs : List DVal)
  | dfrozenset (xs : List DVal)
  | ddict (ps : List (DVal × DVal))
  | dnone
  | dbool (b : Bool)
  | dglobal (modName qualName : List Nat)
  | dreduced (objs : List DVal)

inductive DeErr : Type
  | exc
  | crash
  | mapE (e : MapErr)
  | fuelOut

/-- Little-endian index accumulation of the REF branch:
`for b in data { index |= b << n; n += 8 }`. -/
def leIndex (data : List Nat) : Nat :=
  data.foldr (fun b acc => acc * 256 + b) 0

/-- Modelled from the spec: `get_blob_and_tail` of the `Mapping` trait
(`mapping.rs` is not under `src/`): read `NBYTES` key bytes
(`Key::from_bytes` fails on a length mismatch, a decode error per §7), fetch
the blob, return it with the remaining bytes. -/
def getBlobAndTail (gdb : Blob → Except MapErr Blob) (data : List Nat) :
    Except DeErr (Blob × List Nat) :=
  if data.length < NBYTES then .error .exc
  else
    match gdb (data.take NBYTES) with
    | .ok b => .ok (b, data.drop NBYTES)
    | .error e => .error (.mapE e)

mutual
/-- `deserialize_chunk` from `src/deserialize.rs` (lines 34-227). -/
def deserializeChunk : (fuel : Nat) → (gdb : Blob → Except MapErr Blob) →
    List Nat → List DVal → Except DeErr (DVal × List DVal)
  | 0, _, _, _ => .error .fuelOut
  | fuel + 1, gdb, b, items =>
    match b with
    | [] => .error .crash
    | tokenByte :: data =>
      if tokenByte = token.REF then
        match items.get? (leIndex data) with
        | some o => .ok (o, items)
        | none => .error .crash
      else if tokenByte = token.BYTES then
        .ok (.dbytes data, items ++ [.dbytes data])
      else if tokenByte = token.BYTEARRAY then
        .ok (.dbytearray data, items ++ [.dbytearray data])
      else if tokenByte = token.STRING then
        if utf8Valid data then .ok (.dstr data, items ++ [.dstr data])
        else .error .exc
      else if tokenByte = token.INT then
        .ok (.dint (intReadFrom data), items ++ [.dint (intReadFrom data)])
      else if tokenByte = token.FLOAT then
        if data.length = 8 then .ok (.dfloat data, items ++ [.dfloat data])
        else .error .exc
      else if tokenByte = token.LIST then do
        let (objs, items') ← deserializeSeq fuel gdb data items
        .ok (.dlist objs, items' ++ [.dlist objs])
      else if tokenByte = token.TUPLE then do
        let (objs, items') ← deserializeSeq fuel gdb data items
        .ok (.dtuple objs, items' ++ [.dtuple objs])
      else if tokenByte = token.SET then do
        let (objs, items') ← deserializeSeq fuel gdb data items
        .ok (.dset objs, items' ++ [.dset objs])
      else if tokenByte = token.FROZENSET then do
        let (objs, items') ← deserializeSeq fuel gdb data items
        .ok (.dfrozenset objs, items' ++ [.dfrozenset objs])
      else if tokenByte = token.DICT then do
        let (ps, items') ← deserializePairs fuel gdb data items
        .ok (.ddict ps, items' ++ [.ddict ps])
      else if tokenByte = token.NONE then
        .ok (.dnone, items ++ [.dnone])
      else if tokenByte = token.TRUE then
        .ok (.dbool true, items ++ [.dbool true])
      else if tokenByte = token.FALSE then
        .ok (.dbool false, items ++ [.dbool false])
      else if tokenByte = token.GLOBAL then
        if utf8Valid data then
          if 58 ∈ data then
            let modName := data.takeWhile (· ≠ 58)
            let qualName := (data.dropWhile (· ≠ 58)).drop 1
            .ok (.dglobal modName qualName, items ++ [.dglobal modName qualName])
          else .error .crash
        else .error .exc
      else if tokenByte = token.REDUCE then do
        let (objs, items') ← deserializeSeq fuel gdb data items
        match objs with
        | [] => .error .crash
        | [_] => .error .crash
        | _ :: args :: _ =>
          match args with
          | .dtuple _ => .ok (.dreduced objs, items' ++ [.dreduced objs])
          | _ => .error .exc
      else .error .exc

/-- The chunk-splitting loop shared by the composite branches:
`while !data.is_empty()` read one frame, recurse on the inline chunk or the
fetched blob.  `split_at(data[0])` out of range is a panic. -/
def deserializeSeq : (fuel : Nat) → (gdb : Blob → Except MapErr Blob) →
    List Nat → List DVal → Except DeErr (List DVal × List DVal)
  | 0, _, _, _ => .error .fuelOut
  | fuel + 1, gdb, data, items =>
    match data with
    | [] => .ok ([], items)
    | l :: rest =>
      if l = 0 then do
        let (blob, tail) ← getBlobAndTail gdb rest
        let (o, items') ← deserializeChunk fuel gdb blob items
        let (objs, items'') ← deserializeSeq fuel gdb tail items'
        .ok (o :: objs, items'')
      else
        if l ≤ rest.length then do
          let (o, items') ← deserializeChunk fuel gdb (rest.take l) items
          let (objs, items'') ← deserializeSeq fuel gdb (rest.drop l) items'
          .ok (o :: objs, items'')
        else .error .crash

/-- The DICT loop: two frames per iteration; reading the value frame when the
key frame exhausted the payload indexes an empty slice and panics. -/
def deserializePairs : (fuel : Nat) → (gdb : Blob → Except MapErr Blob) →
    List Nat → List DVal → Except DeErr (List (DVal × DVal) × List DVal)
  | 0, _, _, _ => .error .fuelOut
  | fuel + 1, gdb, data, items =>
    match data with
    | [] => .ok ([], items)
    | l :: rest => do
      let (k, dataK, itemsK) ←
        (if l = 0 then do
          let (blob, tail) ← getBlobAndTail gdb rest
          let (o, items') ← deserializeChunk fuel gdb blob items
          .ok (o, tail, items')
        else if l ≤ rest.length then do
          let (o, items') ← deserializeChunk fuel gdb (rest.take l) items
          .ok (o, rest.drop l, items')
        else .error .crash : Except DeErr (DVal × List Nat × List DVal))
      match dataK with
      | [] => .error .crash
      | l2 :: rest2 => do
        let (v, dataV, itemsV) ←
          (if l2 = 0 then do
            let (blob, tail) ← getBlobAndTail gdb rest2
            let (o, items') ← deserializeChunk fuel gdb blob itemsK
            .ok (o, tail, items')
          else if l2 ≤ rest2.length then do
            let (o, items') ← deserializeChunk fuel gdb (rest2.take l2) itemsK
            .ok (o, rest2.drop l2, items')
          else .error .crash : Except DeErr (DVal × List Nat × List DVal))
        let (ps, items'') ← deserializePairs fuel gdb dataV itemsV
        .ok ((k, v) :: ps, items'')
end

/-- `deserialize` from `src/deserialize.rs` (lines 13-22):
`get_blob_from_bytes` (modelled from the spec: `Key::from_bytes`, which fails
on a length mismatch, then `get_blob`) followed by `deserialize_chunk` on the
fetched root blob with a fresh `items` vector. -/
def deserializeTop (fuel : Nat) (gdb : Blob → Except MapErr Blob) (keyBytes : List Nat) :
    Except DeErr DVal :=
  if keyBytes.length ≠ NBYTES then .error .exc
  else
    match gdb keyBytes with
    | .ok blob => (deserializeChunk fuel gdb blob []).map (·.1)
    | .error e => .error (.mapE e)

/-- `PyRam::unhash` from `db/ram.rs`: deserialize from the RAM store. -/
def pyRamUnhash (fuel : Nat) (st : RamSt) (keyBytes : List Nat) : Except DeErr DVal :=
  deserializeTop fuel (ramGet st) keyBytes

/-! ## Invariants and measures used in the statements -/

/-- Correctness of a `seen` table with respect to a root value: every recorded
key is the digest of the canonical blob of the object carrying that pointer,
and only blobs longer than 255 bytes (the promoted ones) are recorded. -/
def GoodSeen (dg : Blob → Blob) (root : Obj) (seen : List (Nat × Blob)) : Prop :=
  ∀ p ∈ seen, ∀ o ∈ root.subObjs, o.ptr = p.1 →
    p.2 = dg (pureSer dg o) ∧ 255 < (pureSer dg o).length

/-- The store keys successful puts by the digest of the bytes (content
addressing, spec §3); holds for the Ram, Nil and trusting stores. -/
def PutKey {σ : Type} (dg : Blob → Blob) (M : MapOps σ) : Prop :=
  ∀ s b k s', M.putBlob s b = .ok (k, s') → k = dg b

/-- Representability of `n` in `m` bytes of big-endian two's complement. -/
def reprRange (m : Nat) (n : Int) : Prop :=
  if m = 0 then n = 0 else -(2 ^ (8 * m - 1) : Nat) ≤ n ∧ n < (2 ^ (8 * m - 1) : Nat)

mutual
/-- The number of objects the TRAVERSE serializer visits in an alias-free
tree: one back-reference entry per visit. -/
def Obj.count : Obj → Nat
  | .plist _ xs => 1 + xs.count
  | .ptuple _ xs => 1 + xs.count
  | .pset _ xs => 1 + xs.count
  | .pfrozenset _ xs => 1 + xs.count
  | .pdict _ xs => 1 + xs.count
  | _ => 1
def ObjList.count : ObjList → Nat
  | .nil => 0
  | .cons h t => h.count + t.count
def ObjPairs.count : ObjPairs → Nat
  | .nil => 0
  | .cons k v t => k.count + v.count + t.count
end

mutual
/-- No SET/FROZENSET/DICT anywhere (no reserved position slots in the
back-reference stream). -/
def Obj.simple : Obj → Bool
  | .plist _ xs => xs.simple
  | .ptuple _ xs => xs.simple
  | .pset _ _ => false
  | .pfrozenset _ _ => false
  | .pdict _ _ => false
  | _ => true
def ObjList.simple : ObjList → Bool
  | .nil => true
  | .cons h t => h.simple && t.simple
end

/-- The pointers of all subobjects. -/
def Obj.ptrs (o : Obj) : List Nat :=
  o.subObjs.map Obj.ptr

/-! ## Concrete example values used by the claims -/

/-- The set `{1, 2, 3}` iterated in ascending order (distinct identities). -/
def exSet123 : Obj :=
  .pset 10 (.cons (.pint 11 1) (.cons (.pint 12 2) (.cons (.pint 13 3) .nil)))

/-- The set `{1, 2, 3}` iterated in descending order. -/
def exSet321 : Obj :=
  .pset 10 (.cons (.pint 13 3) (.cons (.pint 12 2) (.cons (.pint 11 1) .nil)))

/-- The dict `{"a": 1, "b": 2}` in insertion order (`"a"` is byte 97). -/
def exDictAB : Obj :=
  .pdict 20 (.cons (.pstr 21 [97]) (.pint 22 1)
    (.cons (.pstr 23 [98]) (.pint 24 2) .nil))

/-- The dict `{"b": 2, "a": 1}`: same pairs, opposite iteration order. -/
def exDictBA : Obj :=
  .pdict 20 (.cons (.pstr 23 [98]) (.pint 24 2)
    (.cons (.pstr 21 [97]) (.pint 22 1) .nil))

/-- `x = [1, 2, 3]` of the sharing scenario. -/
def exXSmall : Obj :=
  .plist 1 (.cons (.pint 2 1) (.cons (.pint 3 2) (.cons (.pint 4 3) .nil)))

/-- `v = [x, x]`: the same list object twice (same identity 1). -/
def exVSmall : Obj :=
  .plist 0 (.cons exXSmall (.cons exXSmall .nil))

/-- The bytes `b"A" * 253` (253 copies of byte 65), written out so that every
proof-side evaluation stays a literal. -/
def exABytes : List Nat :=
  [65, 65, 65, 65, 65, 65, 65, 65, 65, 65, 65, 65, 65, 65, 65, 65, 65, 65, 65, 65, 65, 65, 65, 65, 65, 65, 65, 65, 65, 65, 65, 65, 65, 65, 65, 65, 65, 65, 65, 65, 65, 65, 65, 65, 65, 65, 65, 65, 65, 65, 65, 65, 65, 65, 65, 65, 65, 65, 65, 65, 65, 65, 65, 65, 65, 65, 65, 65, 65, 65, 65, 65, 65, 65, 65, 65, 65, 65, 65, 65, 65, 65, 65, 65, 65, 65, 65, 65, 65, 65, 65, 65, 65, 65, 65, 65, 65, 65, 65, 65, 65, 65, 65, 65, 65, 65, 65, 65, 65, 65, 65, 65, 65, 65, 65, 65, 65, 65, 65, 65, 65, 65, 65, 65, 65, 65, 65, 65, 65, 65, 65, 65, 65, 65, 65, 65, 65, 65, 65, 65, 65, 65, 65, 65, 65, 65, 65, 65, 65, 65, 65, 65, 65, 65, 65, 65, 65, 65, 65, 65, 65, 65, 65, 65, 65, 65, 65, 65, 65, 65, 65, 65, 65, 65, 65, 65, 65, 65, 65, 65, 65, 65, 65, 65, 65, 65, 65, 65, 65, 65, 65, 65, 65, 65, 65, 65, 65, 65, 65, 65, 65, 65, 65, 65, 65, 65, 65, 65, 65, 65, 65, 65, 65, 65, 65, 65, 65, 65, 65, 65, 65, 65, 65, 65, 65, 65, 65, 65, 65, 65, 65, 65, 65, 65, 65, 65, 65, 65, 65, 65, 65, 65, 65, 65, 65, 65, 65, 65, 65, 65, 65, 65, 65]

/-- A list whose encoding exceeds 255 bytes: `x = [b"A" * 253]` encodes to
`[LIST, 254, BYTES, 65 × 253]`, 256 bytes. -/
def exXBig : Obj :=
  .plist 1 (.cons (.pbytes 2 exABytes) .nil)

/-- `v = [x, x]` with the promoted `x`. -/
def exVBig : Obj :=
  .plist 0 (.cons exXBig (.cons exXBig .nil))

/-! ## Monadic evaluation lemmas -/

@[simp] theorem exceptBind_ok {e a b : Type} (x : a) (f : a → Except e b) :
    (Except.ok x >>= f : Except e b) = f x := rfl

@[simp] theorem exceptBind_error {e a b : Type} (err : e) (f : a → Except e b) :
    ((Except.error err : Except e a) >>= f) = .error err := rfl

@[simp] theorem exceptMap_ok {e a b : Type} (x : a) (f : a → b) :
    (Except.ok x : Except e a).map f = .ok (f x) := rfl

@[simp] theorem exceptMap_error {e a b : Type} (err : e) (f : a → b) :
    (Except.error err : Except e a).map f = .error err := rfl

/-! ## Order and canonical-chunk lemmas -/

theorem lexLe_total : ∀ a b : List Nat, lexLe a b = true ∨ lexLe b a = true := by
  intro a
  induction a with
  | nil => intro b; left; rfl
  | cons x as_ ih =>
    intro b
    cases b with
    | nil => right; rfl
    | cons y bs =>
      by_cases hxy : x < y
      · left; simp [lexLe, hxy]
      · by_cases hyx : y < x
        · right; simp [lexLe, hyx, hxy]
        · have := ih bs
          simpa [lexLe, hxy, hyx] using this

theorem lexLe_antisymm : ∀ a b : List Nat,
    lexLe a b = true → lexLe b a = true → a = b := by
  intro a
  induction a with
  | nil =>
    intro b _ hba
    cases b with
    | nil => rfl
    | cons y bs => simp [lexLe] at hba
  | cons x as_ ih =>
    intro b hab hba
    cases b with
    | nil => simp [lexLe] at hab
    | cons y bs =>
      by_cases hxy : x < y
      · simp [lexLe, Nat.lt_asymm hxy, hxy] at hba
      · by_cases hyx : y < x
        · simp [lexLe, hxy, hyx] at hab
        · have hx : x = y := by omega
          subst hx
          simp only [lexLe, hxy, if_neg hxy, if_neg hyx, ite_self] at hab hba
          exact congrArg (x :: ·) (ih bs hab hba)

theorem lexLe_trans : ∀ a b c : List Nat,
    lexLe a b = true → lexLe b c = true → lexLe a c = true := by
  intro a
  induction a with
  | nil => intro b c _ _; rfl
  | cons x as_ ih =>
    intro b c hab hbc
    cases b with
    | nil => simp [lexLe] at hab
    | cons y bs =>
      cases c with
      | nil => simp [lexLe] at hbc
      | cons z cs =>
        by_cases hxy : x < y <;> by_cases hyz : y < z
        · simp [lexLe]; omega
        · by_cases hzy : z < y
          · simp [lexLe, hyz, hzy] at hbc
          · have : y = z := by omega
            subst this
            simp [lexLe, hxy]
        · by_cases hyx : y < x
          · simp [lexLe, hxy, hyx] at hab
          · have : x = y := by omega
            subst this
            simp [lexLe, hyz]
        · by_cases hyx : y < x
          · simp [lexLe, hxy, hyx] at hab
          · by_cases hzy : z < y
            · simp [lexLe, hyz, hzy] at hbc
            · have h1 : x = y := by omega
              have h2 : y = z := by omega
              subst h1; subst h2
              simp only [lexLe, if_neg hxy, if_neg hyz, ite_self] at hab hbc ⊢
              exact ih bs cs hab hbc

theorem sortChunks_eq_of_perm {l l' : List Blob} (h : l.Perm l') :
    sortChunks l = sortChunks l' := by
  have inst1 : IsTotal Blob (fun a b => lexLe a b = true) := ⟨lexLe_total⟩
  have inst2 : IsTrans Blob (fun a b => lexLe a b = true) := ⟨lexLe_trans⟩
  have inst3 : IsAntisymm Blob (fun a b => lexLe a b = true) := ⟨lexLe_antisymm⟩
  exact List.eq_of_perm_of_sorted
    (((l.perm_insertionSort _).trans h).trans (l'.perm_insertionSort _).symm)
    (List.sorted_insertionSort _ l) (List.sorted_insertionSort _ l')


theorem pureSeq_eq (dg : Blob → Blob) :
    (xs : ObjList) → pureSeq dg xs = (xs.toList.map (pureChunk dg)).flatten
  | .nil => rfl
  | .cons h t => by
      simp [pureSeq, ObjList.toList, pureChunk, pureSeq_eq dg t]
termination_by structural xs => xs

theorem pureChunksOf_eq (dg : Blob → Blob) :
    (xs : ObjList) → pureChunksOf dg xs = xs.toList.map (pureChunk dg)
  | .nil => rfl
  | .cons h t => by
      simp [pureChunksOf, ObjList.toList, pureChunk, pureChunksOf_eq dg t]
termination_by structural xs => xs

theorem purePairChunksOf_eq (dg : Blob → Blob) :
    (xs : ObjPairs) → purePairChunksOf dg xs =
      xs.toList.map (fun p => pureChunk dg p.1 ++ pureChunk dg p.2)
  | .nil => rfl
  | .cons k v t => by
      simp [purePairChunksOf, ObjPairs.toList, pureChunk, purePairChunksOf_eq dg t]
termination_by structural xs => xs


/-! ## Integer codec lemmas -/

theorem bitLenAux_zero (f : Nat) : bitLenAux f 0 = 0 := by
  cases f <;> simp [bitLenAux]

theorem bitLenAux_spec : ∀ f m, m ≤ f → 0 < m →
    2 ^ (bitLenAux f m - 1) ≤ m ∧ m < 2 ^ bitLenAux f m := by
  intro f
  induction f with
  | zero => intro m hm h0; omega
  | succ f ih =>
    intro m hm h0
    have hm0 : ¬m = 0 := by omega
    by_cases h2 : m / 2 = 0
    · have hm1 : m = 1 := by omega
      subst hm1
      simp [bitLenAux, bitLenAux_zero]
    · have h3 : m / 2 ≤ f := by omega
      obtain ⟨lo, hi⟩ := ih (m / 2) h3 (by omega)
      have hbl : 1 ≤ bitLenAux f (m / 2) := by
        by_contra hb
        have hz : bitLenAux f (m / 2) = 0 := by omega
        rw [hz] at hi
        simp at hi
        omega
      simp only [bitLenAux, if_neg hm0]
      constructor
      · have he : 2 ^ (bitLenAux f (m / 2) + 1 - 1) = 2 * 2 ^ (bitLenAux f (m / 2) - 1) := by
          rw [Nat.add_sub_cancel]
          conv_lhs => rw [show bitLenAux f (m / 2) = bitLenAux f (m / 2) - 1 + 1 by omega]
          rw [pow_succ]
          ring
        rw [he]
        omega
      · have he : 2 ^ (bitLenAux f (m / 2) + 1) = 2 * 2 ^ bitLenAux f (m / 2) := by
          rw [pow_succ]
          ring
        rw [he]
        omega

theorem toBytesBE_length : ∀ L m, (toBytesBE L m).length = L := by
  intro L
  induction L with
  | zero => intro m; rfl
  | succ L ih => intro m; simp [toBytesBE, ih]

theorem toBytesBE_foldl : ∀ L m acc,
    (toBytesBE L m).foldl (fun a x => a * 256 + x) acc = acc * 256 ^ L + m % 256 ^ L := by
  intro L
  induction L with
  | zero => intro m acc; simp [toBytesBE, Nat.mod_one]
  | succ L ih =>
    intro m acc
    have hsplit : m % 256 ^ (L + 1) = m % 256 + 256 * (m / 256 % 256 ^ L) := by
      rw [pow_succ, mul_comm (256 ^ L) 256, Nat.mod_mul]
    simp only [toBytesBE, List.foldl_append, List.foldl_cons, List.foldl_nil, ih]
    rw [hsplit, pow_succ]
    ring

theorem toBytesBE_head : ∀ L m, 0 < L → m < 256 ^ L →
    (toBytesBE L m).head? = some (m / 256 ^ (L - 1)) := by
  intro L
  induction L with
  | zero => intro m h; omega
  | succ L ih =>
    intro m _ hm
    by_cases hL : L = 0
    · subst hL
      simp [toBytesBE, Nat.mod_eq_of_lt (by simpa using hm)]
    · have h1 : 0 < L := by omega
      have h2 : m / 256 < 256 ^ L := by
        rw [pow_succ, mul_comm] at hm
        exact Nat.div_lt_of_lt_mul hm
      have hne : toBytesBE L (m / 256) ≠ [] := by
        intro hnil
        have := toBytesBE_length L (m / 256)
        rw [hnil] at this
        simp at this
        omega
      cases hcons : toBytesBE L (m / 256) with
      | nil => exact absurd hcons hne
      | cons b0 rest =>
        have := ih (m / 256) h1 h2
        rw [hcons] at this
        simp only [List.head?] at this
        simp only [toBytesBE, hcons, List.cons_append, List.head?, Option.some.injEq]
        have harith : m / 256 / 256 ^ (L - 1) = m / 256 ^ (L + 1 - 1) := by
          rw [Nat.div_div_eq_div_mul]
          congr 1
          rw [← pow_succ']
          congr 1
          omega
        rw [← harith]
        simpa using this

theorem pow256_eq (L : Nat) : (256 : Nat) ^ L = 2 ^ (8 * L) := by
  rw [show (256 : Nat) = 2 ^ 8 by norm_num, ← pow_mul]

theorem c7aux_pos (n : Int) (hn : 0 < n) :
    intReadFrom (intWriteTo n) = n ∧
    reprRange (intWriteTo n).length n ∧
    ∀ m, reprRange m n → (intWriteTo n).length ≤ m := by
  have ha0 : 0 < n.natAbs := Int.natAbs_pos.mpr (ne_of_gt hn)
  obtain ⟨lo, hi⟩ := bitLenAux_spec n.natAbs n.natAbs le_rfl ha0
  have hnb1 : 1 ≤ bitLenAux n.natAbs n.natAbs := by
    by_contra h
    have hz : bitLenAux n.natAbs n.natAbs = 0 := by omega
    rw [hz] at hi
    simp at hi
    omega
  have hbl : bitLength n = bitLenAux n.natAbs n.natAbs := rfl
  set nb := bitLenAux n.natAbs n.natAbs with hnbdef
  set L := 1 + nb / 8 with hLdef
  have hnbL : nb ≤ 8 * L - 1 := by omega
  have hbound : n.natAbs < 2 ^ (8 * L - 1) :=
    lt_of_lt_of_le hi (Nat.pow_le_pow_right (by norm_num) hnbL)
  have hbound2 : n.natAbs < 2 ^ (8 * L) :=
    lt_of_lt_of_le hbound (Nat.pow_le_pow_right (by norm_num) (by omega))
  have hNat : ((n.natAbs : Nat) : Int) = n := Int.natAbs_of_nonneg hn.le
  have hmod : n % ((2 ^ (8 * L) : Nat) : Int) = n := by
    apply Int.emod_eq_of_lt hn.le
    rw [← hNat]
    exact_mod_cast hbound2
  have hwrite : intWriteTo n = toBytesBE L n.natAbs := by
    simp only [intWriteTo, not_lt.mpr hn.le, not_false_eq_true, if_true, hbl, ← hnbdef]
    rw [if_pos (Or.inr (by omega)), pyToBytes, hmod]
    congr 1
    omega
  have hlen : (intWriteTo n).length = L := by rw [hwrite, toBytesBE_length]
  have hfold : (toBytesBE L n.natAbs).foldl (fun x y => x * 256 + y) 0 = n.natAbs := by
    rw [toBytesBE_foldl]
    rw [Nat.mod_eq_of_lt (by rw [pow256_eq]; exact hbound2)]
    omega
  refine ⟨?_, ?_, ?_⟩
  · rw [hwrite]
    simp only [intReadFrom, pyFromBytes, toBytesBE_length, hfold]
    rw [if_neg (by omega), if_pos hbound]
    exact hNat
  · rw [hlen, reprRange, if_neg (by omega)]
    constructor
    · have : (0 : Int) ≤ n := hn.le
      have hp : (0 : Int) ≤ ((2 ^ (8 * L - 1) : Nat) : Int) := by positivity
      omega
    · rw [← hNat]
      exact_mod_cast hbound
  · intro m hm
    rw [reprRange] at hm
    by_cases hm0 : m = 0
    · rw [hm0] at hm
      simp at hm
      omega
    · rw [if_neg hm0] at hm
      have hcast : n.natAbs < 2 ^ (8 * m - 1) := by
        have := hm.2
        rw [← hNat] at this
        exact_mod_cast this
      have hlt : 2 ^ (nb - 1) < 2 ^ (8 * m - 1) := lt_of_le_of_lt lo hcast
      have : nb - 1 < 8 * m - 1 := (Nat.pow_lt_pow_iff_right (by norm_num)).mp hlt
      omega

theorem c7aux_neg (n : Int) (hn : n < 0) :
    intReadFrom (intWriteTo n) = n ∧
    (∃ b0 rest, intWriteTo n = b0 :: rest ∧ 128 ≤ b0 ∧ b0 ≤ 255) ∧
    reprRange (intWriteTo n).length n ∧
    ∀ m, reprRange m n → (intWriteTo n).length ≤ m := by
  have hA : ((n + 1).natAbs : Int) = -n - 1 := by
    omega
  have hiA : (n + 1).natAbs < 2 ^ bitLenAux (n + 1).natAbs (n + 1).natAbs := by
    by_cases h0 : (n + 1).natAbs = 0
    · rw [h0, bitLenAux_zero]
      norm_num
    · exact (bitLenAux_spec _ _ le_rfl (by omega)).2
  have hbl : bitLength (n + 1) = bitLenAux (n + 1).natAbs (n + 1).natAbs := rfl
  set A := (n + 1).natAbs with hAdef
  set nb := bitLenAux A A with hnbdef
  set L := 1 + nb / 8 with hLdef
  have hL1 : 1 ≤ L := by omega
  have hnbL : nb ≤ 8 * L - 1 := by omega
  have hub : A < 2 ^ (8 * L - 1) :=
    lt_of_lt_of_le hiA (Nat.pow_le_pow_right (by norm_num) hnbL)
  have hpow2 : (2 : Nat) ^ (8 * L) = 2 * 2 ^ (8 * L - 1) := by
    rw [← pow_succ']
    congr 1
    omega
  have hlow : -((2 ^ (8 * L - 1) : Nat) : Int) ≤ n := by
    have : (A : Int) < ((2 ^ (8 * L - 1) : Nat) : Int) := by exact_mod_cast hub
    omega
  have hmod : n % ((2 ^ (8 * L) : Nat) : Int) = n + ((2 ^ (8 * L) : Nat) : Int) := by
    have hBpos : ((2 ^ (8 * L) : Nat) : Int) = 2 * ((2 ^ (8 * L - 1) : Nat) : Int) := by
      exact_mod_cast hpow2
    have h1 : (n + ((2 ^ (8 * L) : Nat) : Int)) % ((2 ^ (8 * L) : Nat) : Int) =
        n % ((2 ^ (8 * L) : Nat) : Int) := by
      conv_lhs => rw [show n + ((2 ^ (8 * L) : Nat) : Int) =
        n + ((2 ^ (8 * L) : Nat) : Int) * 1 by ring]
      rw [Int.add_mul_emod_self_left]
    rw [← h1]
    apply Int.emod_eq_of_lt (by omega) (by omega)
  have hMb : 2 ^ (8 * L - 1) ≤ (n + ((2 ^ (8 * L) : Nat) : Int)).toNat ∧
      (n + ((2 ^ (8 * L) : Nat) : Int)).toNat < 2 ^ (8 * L) := by
    have hBpos : ((2 ^ (8 * L) : Nat) : Int) = 2 * ((2 ^ (8 * L - 1) : Nat) : Int) := by
      exact_mod_cast hpow2
    omega
  set M := (n + ((2 ^ (8 * L) : Nat) : Int)).toNat with hMdef
  have hMint : (M : Int) = n + ((2 ^ (8 * L) : Nat) : Int) := by
    have hBpos : ((2 ^ (8 * L) : Nat) : Int) = 2 * ((2 ^ (8 * L - 1) : Nat) : Int) := by
      exact_mod_cast hpow2
    omega
  have hwrite : intWriteTo n = toBytesBE L M := by
    simp only [intWriteTo, hbl, ← hnbdef]
    rw [if_neg (not_not_intro hn), if_pos (Or.inl hn), pyToBytes, hmod, ← hMdef]
  have hlen : (intWriteTo n).length = L := by rw [hwrite, toBytesBE_length]
  have hM256 : M < 256 ^ L := by
    rw [pow256_eq]
    exact hMb.2
  have hfold : (toBytesBE L M).foldl (fun x y => x * 256 + y) 0 = M := by
    rw [toBytesBE_foldl, Nat.mod_eq_of_lt hM256]
    omega
  refine ⟨?_, ?_, ?_, ?_⟩
  · rw [hwrite]
    simp only [intReadFrom, pyFromBytes, toBytesBE_length, hfold]
    rw [if_neg (by omega), if_neg (by omega : ¬M < 2 ^ (8 * L - 1))]
    omega
  · have hhead := toBytesBE_head L M (by omega) hM256
    cases hcons : toBytesBE L M with
    | nil =>
      rw [hcons] at hhead
      simp at hhead
    | cons b0 rest =>
      rw [hcons] at hhead
      simp only [List.head?, Option.some.injEq] at hhead
      refine ⟨b0, rest, by rw [hwrite, hcons], ?_, ?_⟩
      · rw [hhead]
        rw [Nat.le_div_iff_mul_le (Nat.pos_pow_of_pos _ (by norm_num))]
        calc 128 * 256 ^ (L - 1) = 2 ^ 7 * 2 ^ (8 * (L - 1)) := by
              rw [pow256_eq]
              norm_num
          _ = 2 ^ (8 * L - 1) := by
              rw [← pow_add]
              congr 1
              omega
          _ ≤ M := hMb.1
      · rw [hhead]
        have h1 : M < 256 ^ (L - 1) * 256 := by
          rw [← pow_succ]
          have he : L - 1 + 1 = L := by omega
          rw [he]
          exact hM256
        have h2 := Nat.div_lt_of_lt_mul h1
        omega
  · rw [hlen, reprRange, if_neg (by omega)]
    refine ⟨hlow, ?_⟩
    have hp : (0 : Int) ≤ ((2 ^ (8 * L - 1) : Nat) : Int) := by positivity
    omega
  · intro m hm
    rw [reprRange] at hm
    by_cases hm0 : m = 0
    · rw [hm0] at hm
      simp at hm
      omega
    · rw [if_neg hm0] at hm
      have hAlt : A < 2 ^ (8 * m - 1) := by
        have h1 := hm.1
        have hp : -n ≤ ((2 ^ (8 * m - 1) : Nat) : Int) := by omega
        have hc : (A : Int) < ((2 ^ (8 * m - 1) : Nat) : Int) := by omega
        exact_mod_cast hc
      by_cases hA0 : A = 0
      · have : nb = 0 := by rw [hnbdef, hA0, bitLenAux_zero]
        rw [hlen]
        omega
      · have lo := (bitLenAux_spec A A le_rfl (by omega)).1
        have hlt : 2 ^ (nb - 1) < 2 ^ (8 * m - 1) := lt_of_le_of_lt lo hAlt
        have : nb - 1 < 8 * m - 1 := (Nat.pow_lt_pow_iff_right (by norm_num)).mp hlt
        rw [hlen]
        omega

/-! ## Claim C7 -/

/-- C7: the integer codec (`Int` in `src/stash.rs`) encodes every integer as
the minimum-length big-endian two's-complement byte string: decoding the
encoding returns the integer, zero encodes as zero bytes, a negative value's
first byte has the topmost bit set, the encoding's length admits `n`
(`reprRange`), and no shorter two's-complement byte string admits `n`. -/
theorem c7_int_codec (n : Int) :
    intReadFrom (intWriteTo n) = n ∧
    (n = 0 → intWriteTo n = []) ∧
    (n < 0 → ∃ b0 rest, intWriteTo n = b0 :: rest ∧ 128 ≤ b0 ∧ b0 ≤ 255) ∧
    reprRange (intWriteTo n).length n ∧
    (∀ m, reprRange m n → (intWriteTo n).length ≤ m) := by
  rcases lt_trichotomy n 0 with hn | hn | hn
  · obtain ⟨h1, h2, h3, h4⟩ := c7aux_neg n hn
    exact ⟨h1, fun h0 => absurd h0 (by omega), fun _ => h2, h3, h4⟩
  · subst hn
    have hz : intWriteTo 0 = [] := rfl
    refine ⟨rfl, fun _ => rfl, fun h => absurd h (by omega), ?_, fun m _ => ?_⟩
    · rw [hz]
      simp [reprRange]
    · rw [hz]
      simp
  · obtain ⟨h1, h2, h3⟩ := c7aux_pos n hn
    exact ⟨h1, fun h0 => absurd h0 (by omega), fun h => absurd h (by omega), h2, h3⟩

/-- C7 witness: the codec theorem evaluated at the concrete integers `-129`,
`0`, `-5` and `300`. -/
theorem c7_witness :
    intReadFrom (intWriteTo (-129)) = -129 ∧ intWriteTo 0 = [] ∧
    (∃ b0 rest, intWriteTo (-5) = b0 :: rest ∧ 128 ≤ b0 ∧ b0 ≤ 255) ∧
    (intWriteTo 300).length ≤ 2 :=
  ⟨(c7_int_codec (-129)).1, (c7_int_codec 0).2.1 rfl,
   (c7_int_codec (-5)).2.2.1 (by decide),
   (c7_int_codec 300).2.2.2.2 2 (by norm_num [reprRange])⟩

theorem alookup_append_fresh (st : List (Blob × Blob)) (x v : Blob)
    (h : alookup st x = none) : alookup (st ++ [(x, v)]) x = some v := by
  induction st with
  | nil => simp [alookup]
  | cons p t ih =>
    rw [alookup] at h
    by_cases hx : p.1 = x
    · rw [if_pos hx] at h
      exact absurd h (by simp)
    · rw [if_neg hx] at h
      cases p with
      | mk a b =>
        simp only [List.cons_append, alookup, if_neg hx]
        exact ih h

/-! ## Claim C8 -/

/-- C8: for the RAM store (`Ram::put_blob`, `db/ram.rs`): putting bytes whose
digest is already occupied by a distinct blob fails with Collision (the early
error return leaves the hash table untouched), and a successful put is
idempotent — repeating it returns the same key and the unchanged store, so no
additional entry is created. -/
theorem c8_ram_collision_and_idempotence (dg : Blob → Blob) (st : RamSt) (b1 b2 : Blob) :
    (alookup st (dg b2) = some b1 → b1 ≠ b2 →
      ramPut dg st b2 = .error (.collision (dg b2))) ∧
    (∀ k st', ramPut dg st b2 = .ok (k, st') →
      k = dg b2 ∧ ramPut dg st' b2 = .ok (k, st')) := by
  constructor
  · intro hl hne
    simp [ramPut, hl, hne]
  · intro k st' hput
    cases halo : alookup st (dg b2) with
    | some existing =>
      by_cases he : existing = b2
      · subst he
        simp only [ramPut, halo, ne_eq, not_true_eq_false, if_false, ite_self,
          not_false_eq_true, if_true, Except.ok.injEq, Prod.mk.injEq] at hput
        obtain ⟨hk, hst⟩ := hput
        subst hk
        subst hst
        refine ⟨rfl, ?_⟩
        rw [ramPut, halo]
        simp
      · simp [ramPut, halo, he] at hput
    | none =>
      simp only [ramPut, halo] at hput
      obtain ⟨hk, hst⟩ := by simpa using hput
      subst hk
      subst hst
      refine ⟨rfl, ?_⟩
      rw [ramPut, alookup_append_fresh st (dg b2) b2 halo]
      simp

/-- C8 witness: a collision on an occupied digest with different bytes, and a
repeated put of the same bytes after a successful first put. -/
theorem c8_witness :
    ramPut dg0 [(dg0 [1], [2])] [1] = .error (.collision (dg0 [1])) ∧
    (dg0 [7] = dg0 [7] ∧ ramPut dg0 [(dg0 [7], [7])] [7] = .ok (dg0 [7], [(dg0 [7], [7])])) :=
  ⟨(c8_ram_collision_and_idempotence dg0 [(dg0 [1], [2])] [2] [1]).1 rfl (by decide),
   (c8_ram_collision_and_idempotence dg0 [] [] [7]).2 (dg0 [7]) [(dg0 [7], [7])] rfl⟩

/-! ## Claim C9 -/

/-- C9 counterexample: the claim states that every malformed blob — the
`GLOBAL` payload lacking the `':'` separator among them — makes `load` return
a DecodeError as an ordinary error result, never a crash.  The code calls
`.expect("qualname does not contain a colon")` on that payload
(`deserialize.rs` line 180), which is a Rust panic, not an error return:
evaluated at the concrete blob `[GLOBAL, 'a', 'b']`. -/
theorem c9_global_missing_colon_panics :
    deserializeChunk 5 (ramGet []) [token.GLOBAL, 97, 98] [] = .error .crash := by
  rfl

/-- C9 amended: for a malformed input blob the cited deserializer returns an
ordinary error result for an unknown leading tag, a FLOAT payload that is not
8 bytes, and invalid UTF-8 in a STRING or GLOBAL payload; but it panics
(aborts) rather than returning an error for a chunk length byte announcing
more bytes than remain (`split_at` out of range) and for a valid-UTF-8 GLOBAL
payload lacking the `':'` separator (`expect`). -/
theorem c9_malformed_blob_outcomes (gdb : Blob → Except MapErr Blob) :
    (∀ fuel t data items, t ≠ token.REF → t ≠ token.BYTES → t ≠ token.BYTEARRAY →
      t ≠ token.STRING → t ≠ token.INT → t ≠ token.FLOAT → t ≠ token.LIST →
      t ≠ token.TUPLE → t ≠ token.SET → t ≠ token.FROZENSET → t ≠ token.DICT →
      t ≠ token.NONE → t ≠ token.TRUE → t ≠ token.FALSE → t ≠ token.GLOBAL →
      t ≠ token.REDUCE →
      deserializeChunk (fuel + 1) gdb (t :: data) items = .error .exc) ∧
    (∀ fuel data items, data.length ≠ 8 →
      deserializeChunk (fuel + 1) gdb (token.FLOAT :: data) items = .error .exc) ∧
    (∀ fuel data items, utf8Valid data = false →
      deserializeChunk (fuel + 1) gdb (token.STRING :: data) items = .error .exc) ∧
    (∀ fuel data items, utf8Valid data = false →
      deserializeChunk (fuel + 1) gdb (token.GLOBAL :: data) items = .error .exc) ∧
    (∀ fuel data items, utf8Valid data = true → ¬58 ∈ data →
      deserializeChunk (fuel + 1) gdb (token.GLOBAL :: data) items = .error .crash) ∧
    (∀ fuel l rest items, l ≠ 0 → rest.length < l →
      deserializeChunk (fuel + 2) gdb (token.LIST :: l :: rest) items = .error .crash) := by
  refine ⟨?_, ?_, ?_, ?_, ?_, ?_⟩
  · intro fuel t data items h1 h2 h3 h4 h5 h6 h7 h8 h9 h10 h11 h12 h13 h14 h15 h16
    simp [deserializeChunk, h1, h2, h3, h4, h5, h6, h7, h8, h9, h10, h11, h12, h13, h14,
      h15, h16]
  · intro fuel data items hlen
    simp [deserializeChunk, token.REF, token.BYTES, token.BYTEARRAY, token.STRING,
      token.INT, token.FLOAT, hlen]
  · intro fuel data items hval
    simp [deserializeChunk, token.REF, token.BYTES, token.BYTEARRAY, token.STRING, hval]
  · intro fuel data items hval
    simp [deserializeChunk, token.REF, token.BYTES, token.BYTEARRAY, token.STRING,
      token.INT, token.FLOAT, token.LIST, token.TUPLE, token.SET, token.FROZENSET,
      token.DICT, token.NONE, token.TRUE, token.FALSE, token.GLOBAL, hval]
  · intro fuel data items hval hcolon
    simp [deserializeChunk, token.REF, token.BYTES, token.BYTEARRAY, token.STRING,
      token.INT, token.FLOAT, token.LIST, token.TUPLE, token.SET, token.FROZENSET,
      token.DICT, token.NONE, token.TRUE, token.FALSE, token.GLOBAL, hval, hcolon]
  · intro fuel l rest items hl0 hlen
    simp [deserializeChunk, deserializeSeq, token.REF, token.BYTES, token.BYTEARRAY,
      token.STRING, token.INT, token.FLOAT, token.LIST, hl0,
      show ¬l ≤ rest.length by omega]

/-- C9 witness: the amended theorem evaluated at an unknown tag `20`, a 2-byte
FLOAT payload, the invalid UTF-8 byte `0xFF` in STRING and GLOBAL payloads, a
colon-free GLOBAL payload, and a LIST chunk whose length byte `5` announces
more bytes than remain. -/
theorem c9_witness :
    deserializeChunk 3 (ramGet []) [20] [] = .error .exc ∧
    deserializeChunk 3 (ramGet []) [token.FLOAT, 1, 2] [] = .error .exc ∧
    deserializeChunk 3 (ramGet []) [token.STRING, 255] [] = .error .exc ∧
    deserializeChunk 3 (ramGet []) [token.GLOBAL, 255] [] = .error .exc ∧
    deserializeChunk 3 (ramGet []) [token.GLOBAL, 97] [] = .error .crash ∧
    deserializeChunk 4 (ramGet []) [token.LIST, 5, 1] [] = .error .crash :=
  ⟨(c9_malformed_blob_outcomes (ramGet [])).1 2 20 [] [] (by decide) (by decide) (by decide)
      (by decide) (by decide) (by decide) (by decide) (by decide) (by decide) (by decide)
      (by decide) (by decide) (by decide) (by decide) (by decide) (by decide),
   (c9_malformed_blob_outcomes (ramGet [])).2.1 2 [1, 2] [] (by decide),
   (c9_malformed_blob_outcomes (ramGet [])).2.2.1 2 [255] [] (by decide),
   (c9_malformed_blob_outcomes (ramGet [])).2.2.2.1 2 [255] [] (by decide),
   (c9_malformed_blob_outcomes (ramGet [])).2.2.2.2.1 2 [97] [] (by decide) (by decide),
   (c9_malformed_blob_outcomes (ramGet [])).2.2.2.2.2 2 5 [1] [] (by decide) (by decide)⟩

/-! ## Subobject lemmas -/

theorem subObjs_self (o : Obj) : o ∈ o.subObjs := by
  cases o <;> simp [Obj.subObjs]

mutual
theorem subObjs_trans : (c : Obj) → ∀ a b : Obj, a ∈ b.subObjs → b ∈ c.subObjs → a ∈ c.subObjs
  | .plist i xs => by
    intro a b hab hbc
    rw [Obj.subObjs] at hbc ⊢
    rcases List.mem_cons.mp hbc with hb | hb
    · subst hb
      rw [Obj.subObjs] at hab
      exact hab
    · exact List.mem_cons_of_mem _ (subObjsList_trans xs a b hab hb)
  | .ptuple i xs => by
    intro a b hab hbc
    rw [Obj.subObjs] at hbc ⊢
    rcases List.mem_cons.mp hbc with hb | hb
    · subst hb
      rw [Obj.subObjs] at hab
      exact hab
    · exact List.mem_cons_of_mem _ (subObjsList_trans xs a b hab hb)
  | .pset i xs => by
    intro a b hab hbc
    rw [Obj.subObjs] at hbc ⊢
    rcases List.mem_cons.mp hbc with hb | hb
    · subst hb
      rw [Obj.subObjs] at hab
      exact hab
    · exact List.mem_cons_of_mem _ (subObjsList_trans xs a b hab hb)
  | .pfrozenset i xs => by
    intro a b hab hbc
    rw [Obj.subObjs] at hbc ⊢
    rcases List.mem_cons.mp hbc with hb | hb
    · subst hb
      rw [Obj.subObjs] at hab
      exact hab
    · exact List.mem_cons_of_mem _ (subObjsList_trans xs a b hab hb)
  | .pdict i xs => by
    intro a b hab hbc
    rw [Obj.subObjs] at hbc ⊢
    rcases List.mem_cons.mp hbc with hb | hb
    · subst hb
      rw [Obj.subObjs] at hab
      exact hab
    · exact List.mem_cons_of_mem _ (subObjsPairs_trans xs a b hab hb)
  | .pstr i s => by
    intro a b hab hbc
    simp only [Obj.subObjs, List.mem_singleton] at hbc
    subst hbc
    exact hab
  | .pbytearray i s => by
    intro a b hab hbc
    simp only [Obj.subObjs, List.mem_singleton] at hbc
    subst hbc
    exact hab
  | .pbytes i s => by
    intro a b hab hbc
    simp only [Obj.subObjs, List.mem_singleton] at hbc
    subst hbc
    exact hab
  | .pint i n => by
    intro a b hab hbc
    simp only [Obj.subObjs, List.mem_singleton] at hbc
    subst hbc
    exact hab
  | .pfloat i s => by
    intro a b hab hbc
    simp only [Obj.subObjs, List.mem_singleton] at hbc
    subst hbc
    exact hab
  | .pnone i => by
    intro a b hab hbc
    simp only [Obj.subObjs, List.mem_singleton] at hbc
    subst hbc
    exact hab
  | .ptrue i => by
    intro a b hab hbc
    simp only [Obj.subObjs, List.mem_singleton] at hbc
    subst hbc
    exact hab
  | .pfalse i => by
    intro a b hab hbc
    simp only [Obj.subObjs, List.mem_singleton] at hbc
    subst hbc
    exact hab
termination_by structural c => c

theorem subObjsList_trans : (xs : ObjList) → ∀ a b : Obj,
    a ∈ b.subObjs → b ∈ xs.subObjs → a ∈ xs.subObjs
  | .nil => by
    intro a b _ hbc
    simp [ObjList.subObjs] at hbc
  | .cons h t => by
    intro a b hab hbc
    rw [ObjList.subObjs] at hbc ⊢
    rcases List.mem_append.mp hbc with hb | hb
    · exact List.mem_append_left _ (subObjs_trans h a b hab hb)
    · exact List.mem_append_right _ (subObjsList_trans t a b hab hb)
termination_by structural xs => xs

theorem subObjsPairs_trans : (xs : ObjPairs) → ∀ a b : Obj,
    a ∈ b.subObjs → b ∈ xs.subObjs → a ∈ xs.subObjs
  | .nil => by
    intro a b _ hbc
    simp [ObjPairs.subObjs] at hbc
  | .cons k v t => by
    intro a b hab hbc
    rw [ObjPairs.subObjs] at hbc ⊢
    rcases List.mem_append.mp hbc with hb | hb
    · rcases List.mem_append.mp hb with hb' | hb'
      · exact List.mem_append_left _ (List.mem_append_left _ (subObjs_trans k a b hab hb'))
      · exact List.mem_append_left _ (List.mem_append_right _ (subObjs_trans v a b hab hb'))
    · exact List.mem_append_right _ (subObjsPairs_trans t a b hab hb)
termination_by structural xs => xs
end

theorem mem_subObjsList_of_mem_toList {h : Obj} :
    (xs : ObjList) → h ∈ xs.toList → h ∈ xs.subObjs
  | .nil => by
    intro hx
    simp [ObjList.toList] at hx
  | .cons h' t => by
    intro hx
    rw [ObjList.toList] at hx
    rw [ObjList.subObjs]
    rcases List.mem_cons.mp hx with he | he
    · subst he
      exact List.mem_append_left _ (subObjs_self h)
    · exact List.mem_append_right _ (mem_subObjsList_of_mem_toList t he)
termination_by structural xs => xs

theorem mem_subObjsPairs_of_mem_toList {k v : Obj} :
    (xs : ObjPairs) → (k, v) ∈ xs.toList → k ∈ xs.subObjs ∧ v ∈ xs.subObjs
  | .nil => by
    intro hx
    simp [ObjPairs.toList] at hx
  | .cons k' v' t => by
    intro hx
    rw [ObjPairs.toList] at hx
    rw [ObjPairs.subObjs]
    rcases List.mem_cons.mp hx with he | he
    · cases he
      constructor
      · exact List.mem_append_left _ (List.mem_append_left _ (subObjs_self k))
      · exact List.mem_append_left _ (List.mem_append_right _ (subObjs_self v))
    · obtain ⟨h1, h2⟩ := mem_subObjsPairs_of_mem_toList t he
      exact ⟨List.mem_append_right _ h1, List.mem_append_right _ h2⟩
termination_by structural xs => xs

theorem seenLookup_mem : ∀ (l : List (Nat × Blob)) (p : Nat) (k : Blob),
    seenLookup l p = some k → (p, k) ∈ l := by
  intro l
  induction l with
  | nil => intro p k h; simp [seenLookup] at h
  | cons q t ih =>
    intro p k h
    cases q with
    | mk a b =>
      rw [seenLookup] at h
      by_cases hq : a = p
      · rw [if_pos hq] at h
        subst hq
        obtain rfl : b = k := by simpa using h
        exact List.mem_cons_self _ _
      · rw [if_neg hq] at h
        exact List.mem_cons_of_mem _ (ih p k h)

/-! ## The inlined chunk bodies agree with `serStashChunk` -/

theorem serStashSeq_cons {σ : Type} (M : MapOps σ) (h : Obj) (t : ObjList)
    (v : Blob) (st : SerSt σ) :
    serStashSeq M (.cons h t) v st = (do
      let (c, st') ← serStashChunk M h st
      serStashSeq M t (v ++ c) st') := by
  rw [serStashSeq, serStashChunk]
  cases seenLookup st.seen h.ptr with
  | some hsh => simp
  | none =>
    cases serStash M h st with
    | error e => simp
    | ok p =>
      simp only [exceptBind_ok]
      by_cases hle : p.1.length ≤ 255
      · simp [hle]
      · simp only [hle, if_false]
        cases M.putBlob p.2.db p.1 with
        | error e => simp
        | ok q => simp

theorem serStashChunksOf_cons {σ : Type} (M : MapOps σ) (h : Obj) (t : ObjList)
    (st : SerSt σ) :
    serStashChunksOf M (.cons h t) st = (do
      let (c, st') ← serStashChunk M h st
      let (cs, st'') ← serStashChunksOf M t st'
      .ok (c :: cs, st'')) := by
  rw [serStashChunksOf]
  simp only [serStashChunk]

theorem serStashPairChunksOf_cons {σ : Type} (M : MapOps σ) (ko vo : Obj) (t : ObjPairs)
    (st : SerSt σ) :
    serStashPairChunksOf M (.cons ko vo t) st = (do
      let (ck, st1) ← serStashChunk M ko st
      let (cv, st2) ← serStashChunk M vo st1
      let (cs, st3) ← serStashPairChunksOf M t st2
      .ok ((ck ++ cv) :: cs, st3)) := by
  rw [serStashPairChunksOf]
  simp only [serStashChunk]

/-! ## Refinement: the effectful stash serializer computes the canonical blob -/

/-- One chunk step: under a correct `seen` table, `serialize_chunk` emits
exactly the canonical chunk frame of the child and preserves correctness of
the table. -/
theorem serStashChunk_refine {σ : Type} (dg : Blob → Blob) (M : MapOps σ)
    (hM : PutKey dg M) (root : Obj) (hwf : WFObj root) (h : Obj)
    (hmem : h ∈ root.subObjs)
    (IH : ∀ st b st2, GoodSeen dg root st.seen → serStash M h st = .ok (b, st2) →
      b = pureSer dg h ∧ GoodSeen dg root st2.seen) :
    ∀ st c st2, GoodSeen dg root st.seen → serStashChunk M h st = .ok (c, st2) →
      c = pureChunk dg h ∧ GoodSeen dg root st2.seen := by
  intro st c st2 hgs hser
  rw [serStashChunk] at hser
  cases hlook : seenLookup st.seen h.ptr with
  | some hsh =>
    rw [hlook] at hser
    obtain ⟨hc, hst⟩ := by simpa using hser
    have hgood := hgs _ (seenLookup_mem _ _ _ hlook) h hmem rfl
    have hkey : hsh = dg (pureSer dg h) := hgood.1
    have hbig : 255 < (pureSer dg h).length := hgood.2
    subst hst
    refine ⟨?_, hgs⟩
    rw [← hc, pureChunk, if_neg (by omega), hkey]
  | none =>
    rw [hlook] at hser
    cases hcall : serStash M h st with
    | error e =>
      rw [hcall] at hser
      simp at hser
    | ok p =>
      rw [hcall] at hser
      obtain ⟨hb, hgs'⟩ := IH st p.1 p.2 hgs (by rw [hcall])
      simp only [exceptBind_ok] at hser
      by_cases hle : p.1.length ≤ 255
      · rw [if_pos hle] at hser
        obtain ⟨hc, hst⟩ := by simpa using hser
        subst hst
        refine ⟨?_, hgs'⟩
        rw [← hc, hb, pureChunk, if_pos (by rw [← hb]; exact hle)]
      · rw [if_neg hle] at hser
        cases hput : M.putBlob p.2.db p.1 with
        | error e =>
          rw [hput] at hser
          simp at hser
        | ok q =>
          rw [hput] at hser
          obtain ⟨hc, hst⟩ := by simpa using hser
          have hkey : q.1 = dg p.1 := hM _ _ _ _ hput
          constructor
          · rw [← hc, hkey, hb, pureChunk, if_neg (by rw [← hb]; exact hle)]
          · rw [← hst]
            intro pr hpr o' ho' hptr
            rcases List.mem_cons.mp hpr with hpr | hpr
            · subst hpr
              simp only at hptr
              have ho'h : o' = h := hwf o' ho' h hmem hptr
              subst ho'h
              rw [hkey, hb]
              refine ⟨rfl, ?_⟩
              rw [← hb]
              omega
            · exact hgs' pr hpr o' ho' hptr

theorem pureSeq_cons_eq (dg : Blob → Blob) (h : Obj) (t : ObjList) :
    pureSeq dg (.cons h t) = pureChunk dg h ++ pureSeq dg t := rfl

theorem pureChunksOf_cons_eq (dg : Blob → Blob) (h : Obj) (t : ObjList) :
    pureChunksOf dg (.cons h t) = pureChunk dg h :: pureChunksOf dg t := rfl

theorem purePairChunksOf_cons_eq (dg : Blob → Blob) (k v : Obj) (t : ObjPairs) :
    purePairChunksOf dg (.cons k v t) =
      (pureChunk dg k ++ pureChunk dg v) :: purePairChunksOf dg t := rfl

mutual
theorem serStash_refine {σ : Type} (dg : Blob → Blob) (M : MapOps σ) (hM : PutKey dg M)
    (root : Obj) (hwf : WFObj root) :
    (o : Obj) → ∀ st b st2, o ∈ root.subObjs → GoodSeen dg root st.seen →
      serStash M o st = .ok (b, st2) → b = pureSer dg o ∧ GoodSeen dg root st2.seen
  | .pstr i s => by
    intro st b st2 _ hgs hser
    simp only [serStash] at hser
    obtain ⟨hb, hst⟩ := by simpa using hser
    subst hb
    subst hst
    exact ⟨by rw [pureSer], hgs⟩
  | .pbytearray i s => by
    intro st b st2 _ hgs hser
    simp only [serStash] at hser
    obtain ⟨hb, hst⟩ := by simpa using hser
    subst hb
    subst hst
    exact ⟨by rw [pureSer], hgs⟩
  | .pbytes i s => by
    intro st b st2 _ hgs hser
    simp only [serStash] at hser
    obtain ⟨hb, hst⟩ := by simpa using hser
    subst hb
    subst hst
    exact ⟨by rw [pureSer], hgs⟩
  | .pint i n => by
    intro st b st2 _ hgs hser
    simp only [serStash] at hser
    obtain ⟨hb, hst⟩ := by simpa using hser
    subst hb
    subst hst
    exact ⟨by rw [pureSer], hgs⟩
  | .pfloat i s => by
    intro st b st2 _ hgs hser
    simp only [serStash] at hser
    obtain ⟨hb, hst⟩ := by simpa using hser
    subst hb
    subst hst
    exact ⟨by rw [pureSer], hgs⟩
  | .pnone i => by
    intro st b st2 _ hgs hser
    simp only [serStash] at hser
    obtain ⟨hb, hst⟩ := by simpa using hser
    subst hb
    subst hst
    exact ⟨by rw [pureSer], hgs⟩
  | .ptrue i => by
    intro st b st2 _ hgs hser
    simp only [serStash] at hser
    obtain ⟨hb, hst⟩ := by simpa using hser
    subst hb
    subst hst
    exact ⟨by rw [pureSer], hgs⟩
  | .pfalse i => by
    intro st b st2 _ hgs hser
    simp only [serStash] at hser
    obtain ⟨hb, hst⟩ := by simpa using hser
    subst hb
    subst hst
    exact ⟨by rw [pureSer], hgs⟩
  | .plist i xs => by
    intro st b st2 hmem hgs hser
    simp only [serStash] at hser
    have hch : ∀ h ∈ xs.toList, h ∈ root.subObjs := by
      intro h hh
      refine subObjs_trans root h (.plist i xs) ?_ hmem
      rw [Obj.subObjs]
      exact List.mem_cons_of_mem _ (mem_subObjsList_of_mem_toList xs hh)
    obtain ⟨hr, hgs2⟩ := serStashSeq_refine dg M hM root hwf xs [token.LIST] st b st2 hch hgs hser
    refine ⟨?_, hgs2⟩
    rw [hr, pureSer]
    rfl
  | .ptuple i xs => by
    intro st b st2 hmem hgs hser
    simp only [serStash] at hser
    have hch : ∀ h ∈ xs.toList, h ∈ root.subObjs := by
      intro h hh
      refine subObjs_trans root h (.ptuple i xs) ?_ hmem
      rw [Obj.subObjs]
      exact List.mem_cons_of_mem _ (mem_subObjsList_of_mem_toList xs hh)
    obtain ⟨hr, hgs2⟩ := serStashSeq_refine dg M hM root hwf xs [token.TUPLE] st b st2 hch hgs hser
    refine ⟨?_, hgs2⟩
    rw [hr, pureSer]
    rfl
  | .pset i xs => by
    intro st b st2 hmem hgs hser
    simp only [serStash] at hser
    cases hcall : serStashChunksOf M xs st with
    | error e =>
      rw [hcall] at hser
      simp at hser
    | ok p =>
      obtain ⟨cs, st'⟩ := p
      rw [hcall] at hser
      simp only [exceptBind_ok] at hser
      obtain ⟨hb, hst⟩ := by simpa using hser
      have hch : ∀ h ∈ xs.toList, h ∈ root.subObjs := by
        intro h hh
        refine subObjs_trans root h (.pset i xs) ?_ hmem
        rw [Obj.subObjs]
        exact List.mem_cons_of_mem _ (mem_subObjsList_of_mem_toList xs hh)
      obtain ⟨hcs, hgs2⟩ := serStashChunksOf_refine dg M hM root hwf xs st cs st' hch hgs hcall
      subst hst
      refine ⟨?_, hgs2⟩
      rw [← hb, hcs, pureSer]
  | .pfrozenset i xs => by
    intro st b st2 hmem hgs hser
    simp only [serStash] at hser
    cases hcall : serStashChunksOf M xs st with
    | error e =>
      rw [hcall] at hser
      simp at hser
    | ok p =>
      obtain ⟨cs, st'⟩ := p
      rw [hcall] at hser
      simp only [exceptBind_ok] at hser
      obtain ⟨hb, hst⟩ := by simpa using hser
      have hch : ∀ h ∈ xs.toList, h ∈ root.subObjs := by
        intro h hh
        refine subObjs_trans root h (.pfrozenset i xs) ?_ hmem
        rw [Obj.subObjs]
        exact List.mem_cons_of_mem _ (mem_subObjsList_of_mem_toList xs hh)
      obtain ⟨hcs, hgs2⟩ := serStashChunksOf_refine dg M hM root hwf xs st cs st' hch hgs hcall
      subst hst
      refine ⟨?_, hgs2⟩
      rw [← hb, hcs, pureSer]
  | .pdict i xs => by
    intro st b st2 hmem hgs hser
    simp only [serStash] at hser
    cases hcall : serStashPairChunksOf M xs st with
    | error e =>
      rw [hcall] at hser
      simp at hser
    | ok p =>
      obtain ⟨cs, st'⟩ := p
      rw [hcall] at hser
      simp only [exceptBind_ok] at hser
      obtain ⟨hb, hst⟩ := by simpa using hser
      have hch : ∀ kv ∈ xs.toList, kv.1 ∈ root.subObjs ∧ kv.2 ∈ root.subObjs := by
        intro kv hkv
        obtain ⟨h1, h2⟩ := mem_subObjsPairs_of_mem_toList xs hkv
        constructor
        · refine subObjs_trans root kv.1 (.pdict i xs) ?_ hmem
          rw [Obj.subObjs]
          exact List.mem_cons_of_mem _ h1
        · refine subObjs_trans root kv.2 (.pdict i xs) ?_ hmem
          rw [Obj.subObjs]
          exact List.mem_cons_of_mem _ h2
      obtain ⟨hcs, hgs2⟩ := serStashPairChunksOf_refine dg M hM root hwf xs st cs st' hch hgs hcall
      subst hst
      refine ⟨?_, hgs2⟩
      rw [← hb, hcs, pureSer]
termination_by structural o => o

theorem serStashSeq_refine {σ : Type} (dg : Blob → Blob) (M : MapOps σ) (hM : PutKey dg M)
    (root : Obj) (hwf : WFObj root) :
    (xs : ObjList) → ∀ v st r st2, (∀ h ∈ xs.toList, h ∈ root.subObjs) →
      GoodSeen dg root st.seen → serStashSeq M xs v st = .ok (r, st2) →
      r = v ++ pureSeq dg xs ∧ GoodSeen dg root st2.seen
  | .nil => by
    intro v st r st2 _ hgs hser
    simp only [serStashSeq] at hser
    obtain ⟨hr, hst⟩ := by simpa using hser
    subst hr
    subst hst
    exact ⟨by simp [pureSeq], hgs⟩
  | .cons h t => by
    intro v st r st2 hch hgs hser
    rw [serStashSeq_cons] at hser
    cases hchunk : serStashChunk M h st with
    | error e =>
      rw [hchunk] at hser
      simp at hser
    | ok p =>
      obtain ⟨c, st'⟩ := p
      rw [hchunk] at hser
      simp only [exceptBind_ok] at hser
      have hh : h ∈ root.subObjs := hch h (by rw [ObjList.toList]; exact List.mem_cons_self _ _)
      obtain ⟨hc, hgs1⟩ := serStashChunk_refine dg M hM root hwf h hh
        (fun sta ba sta2 hga hsa => serStash_refine dg M hM root hwf h sta ba sta2 hh hga hsa)
        st c st' hgs hchunk
      obtain ⟨hr, hgs2⟩ := serStashSeq_refine dg M hM root hwf t (v ++ c) st' r st2
        (fun h' hh' => hch h' (by rw [ObjList.toList]; exact List.mem_cons_of_mem _ hh')) hgs1 hser
      refine ⟨?_, hgs2⟩
      rw [hr, hc, pureSeq_cons_eq, List.append_assoc]
termination_by structural xs => xs

theorem serStashChunksOf_refine {σ : Type} (dg : Blob → Blob) (M : MapOps σ) (hM : PutKey dg M)
    (root : Obj) (hwf : WFObj root) :
    (xs : ObjList) → ∀ st cs st2, (∀ h ∈ xs.toList, h ∈ root.subObjs) →
      GoodSeen dg root st.seen → serStashChunksOf M xs st = .ok (cs, st2) →
      cs = pureChunksOf dg xs ∧ GoodSeen dg root st2.seen
  | .nil => by
    intro st cs st2 _ hgs hser
    simp only [serStashChunksOf] at hser
    obtain ⟨hcs, hst⟩ := by simpa using hser
    subst hcs
    subst hst
    exact ⟨by rw [pureChunksOf], hgs⟩
  | .cons h t => by
    intro st cs st2 hch hgs hser
    rw [serStashChunksOf_cons] at hser
    cases hchunk : serStashChunk M h st with
    | error e =>
      rw [hchunk] at hser
      simp at hser
    | ok p =>
      obtain ⟨c, st'⟩ := p
      rw [hchunk] at hser
      simp only [exceptBind_ok] at hser
      cases hrest : serStashChunksOf M t st' with
      | error e =>
        rw [hrest] at hser
        simp at hser
      | ok q =>
        obtain ⟨cs', st''⟩ := q
        rw [hrest] at hser
        simp only [exceptBind_ok] at hser
        obtain ⟨hcs, hst⟩ := by simpa using hser
        have hh : h ∈ root.subObjs := hch h (by rw [ObjList.toList]; exact List.mem_cons_self _ _)
        obtain ⟨hc, hgs1⟩ := serStashChunk_refine dg M hM root hwf h hh
          (fun sta ba sta2 hga hsa => serStash_refine dg M hM root hwf h sta ba sta2 hh hga hsa)
          st c st' hgs hchunk
        obtain ⟨hcs', hgs2⟩ := serStashChunksOf_refine dg M hM root hwf t st' cs' st''
          (fun h' hh' => hch h' (by rw [ObjList.toList]; exact List.mem_cons_of_mem _ hh')) hgs1 hrest
        subst hst
        refine ⟨?_, hgs2⟩
        rw [← hcs, hc, hcs', pureChunksOf_cons_eq]
termination_by structural xs => xs

theorem serStashPairChunksOf_refine {σ : Type} (dg : Blob → Blob) (M : MapOps σ) (hM : PutKey dg M)
    (root : Obj) (hwf : WFObj root) :
    (xs : ObjPairs) → ∀ st cs st2, (∀ kv ∈ xs.toList, kv.1 ∈ root.subObjs ∧ kv.2 ∈ root.subObjs) →
      GoodSeen dg root st.seen → serStashPairChunksOf M xs st = .ok (cs, st2) →
      cs = purePairChunksOf dg xs ∧ GoodSeen dg root st2.seen
  | .nil => by
    intro st cs st2 _ hgs hser
    simp only [serStashPairChunksOf] at hser
    obtain ⟨hcs, hst⟩ := by simpa using hser
    subst hcs
    subst hst
    exact ⟨by rw [purePairChunksOf], hgs⟩
  | .cons ko vo t => by
    intro st cs st2 hch hgs hser
    rw [serStashPairChunksOf_cons] at hser
    cases hchunk1 : serStashChunk M ko st with
    | error e =>
      rw [hchunk1] at hser
      simp at hser
    | ok p =>
      obtain ⟨ck, st1⟩ := p
      rw [hchunk1] at hser
      simp only [exceptBind_ok] at hser
      cases hchunk2 : serStashChunk M vo st1 with
      | error e =>
        rw [hchunk2] at hser
        simp at hser
      | ok p2 =>
        obtain ⟨cv, stv⟩ := p2
        rw [hchunk2] at hser
        simp only [exceptBind_ok] at hser
        cases hrest : serStashPairChunksOf M t stv with
        | error e =>
          rw [hrest] at hser
          simp at hser
        | ok q =>
          obtain ⟨cs', st''⟩ := q
          rw [hrest] at hser
          simp only [exceptBind_ok] at hser
          obtain ⟨hcs, hst⟩ := by simpa using hser
          have hk : ko ∈ root.subObjs :=
            (hch (ko, vo) (by rw [ObjPairs.toList]; exact List.mem_cons_self _ _)).1
          have hv : vo ∈ root.subObjs :=
            (hch (ko, vo) (by rw [ObjPairs.toList]; exact List.mem_cons_self _ _)).2
          obtain ⟨hck, hgs1⟩ := serStashChunk_refine dg M hM root hwf ko hk
            (fun sta ba sta2 hga hsa => serStash_refine dg M hM root hwf ko sta ba sta2 hk hga hsa)
            st ck st1 hgs hchunk1
          obtain ⟨hcv, hgs2⟩ := serStashChunk_refine dg M hM root hwf vo hv
            (fun sta ba sta2 hga hsa => serStash_refine dg M hM root hwf vo sta ba sta2 hv hga hsa)
            st1 cv stv hgs1 hchunk2
          obtain ⟨hcs', hgs3⟩ := serStashPairChunksOf_refine dg M hM root hwf t stv cs' st''
            (fun kv hkv => hch kv (by rw [ObjPairs.toList]; exact List.mem_cons_of_mem _ hkv))
            hgs2 hrest
          subst hst
          refine ⟨?_, hgs3⟩
          rw [← hcs, hck, hcv, hcs', purePairChunksOf_cons_eq]
termination_by structural xs => xs
end

/-! ## Totality over the Nil store, and store key lemmas -/

theorem putKey_nilM (dg : Blob → Blob) : PutKey dg (nilM dg) := by
  intro s b k s' h
  simp only [nilM] at h
  cases h
  rfl

theorem putKey_ramM (dg : Blob → Blob) : PutKey dg (ramM dg) := by
  intro s b k s' h
  simp only [ramM] at h
  rw [ramPut] at h
  cases halo : alookup s (dg b) with
  | some existing =>
    simp only [halo] at h
    by_cases he : existing = b
    · rw [if_neg (by simpa using he)] at h
      cases h
      rfl
    · rw [if_pos (by simpa using he)] at h
      cases h
  | none =>
    simp only [halo] at h
    cases h
    rfl

theorem ramPut_stores (dg : Blob → Blob) (s : RamSt) (b k : Blob) (s' : RamSt)
    (h : ramPut dg s b = .ok (k, s')) : alookup s' (dg b) = some b := by
  rw [ramPut] at h
  cases halo : alookup s (dg b) with
  | some existing =>
    simp only [halo] at h
    by_cases he : existing = b
    · rw [if_neg (by simpa using he)] at h
      cases h
      rw [halo, he]
    · rw [if_pos (by simpa using he)] at h
      cases h
  | none =>
    simp only [halo] at h
    cases h
    exact alookup_append_fresh s (dg b) b halo

theorem goodSeen_nil (dg : Blob → Blob) (root : Obj) : GoodSeen dg root [] := by
  intro p hp
  simp at hp

theorem serStashChunk_nil_total (dg : Blob → Blob) (h : Obj)
    (IH : ∀ st : SerSt Unit, ∃ b st2, serStash (nilM dg) h st = .ok (b, st2)) :
    ∀ st : SerSt Unit, ∃ c st2, serStashChunk (nilM dg) h st = .ok (c, st2) := by
  intro st
  rw [serStashChunk]
  cases hlook : seenLookup st.seen h.ptr with
  | some hsh => exact ⟨_, _, rfl⟩
  | none =>
    obtain ⟨b, st2, hb⟩ := IH st
    rw [hb]
    simp only [exceptBind_ok]
    by_cases hle : b.length ≤ 255
    · rw [if_pos hle]
      exact ⟨_, _, rfl⟩
    · rw [if_neg hle]
      exact ⟨_, _, rfl⟩

mutual
theorem serStash_nil_total (dg : Blob → Blob) :
    (o : Obj) → ∀ st : SerSt Unit, ∃ b st2, serStash (nilM dg) o st = .ok (b, st2)
  | .pstr i s => fun st => ⟨_, _, rfl⟩
  | .pbytearray i s => fun st => ⟨_, _, rfl⟩
  | .pbytes i s => fun st => ⟨_, _, rfl⟩
  | .pint i n => fun st => ⟨_, _, rfl⟩
  | .pfloat i s => fun st => ⟨_, _, rfl⟩
  | .pnone i => fun st => ⟨_, _, rfl⟩
  | .ptrue i => fun st => ⟨_, _, rfl⟩
  | .pfalse i => fun st => ⟨_, _, rfl⟩
  | .plist i xs => by
    intro st
    simp only [serStash]
    exact serStashSeq_nil_total dg xs [token.LIST] st
  | .ptuple i xs => by
    intro st
    simp only [serStash]
    exact serStashSeq_nil_total dg xs [token.TUPLE] st
  | .pset i xs => by
    intro st
    obtain ⟨cs, st2, hcs⟩ := serStashChunksOf_nil_total dg xs st
    refine ⟨token.SET :: (sortChunks cs).flatten, st2, ?_⟩
    simp only [serStash, hcs, exceptBind_ok]
  | .pfrozenset i xs => by
    intro st
    obtain ⟨cs, st2, hcs⟩ := serStashChunksOf_nil_total dg xs st
    refine ⟨token.FROZENSET :: (sortChunks cs).flatten, st2, ?_⟩
    simp only [serStash, hcs, exceptBind_ok]
  | .pdict i xs => by
    intro st
    obtain ⟨cs, st2, hcs⟩ := serStashPairChunksOf_nil_total dg xs st
    refine ⟨token.DICT :: (sortChunks cs).flatten, st2, ?_⟩
    simp only [serStash, hcs, exceptBind_ok]
termination_by structural o => o

theorem serStashSeq_nil_total (dg : Blob → Blob) :
    (xs : ObjList) → ∀ (v : Blob) (st : SerSt Unit),
      ∃ r st2, serStashSeq (nilM dg) xs v st = .ok (r, st2)
  | .nil => fun v st => ⟨_, _, rfl⟩
  | .cons h t => by
    intro v st
    rw [serStashSeq_cons]
    obtain ⟨c, stc, hc⟩ := serStashChunk_nil_total dg h (serStash_nil_total dg h) st
    rw [hc]
    simp only [exceptBind_ok]
    exact serStashSeq_nil_total dg t (v ++ c) stc
termination_by structural xs => xs

theorem serStashChunksOf_nil_total (dg : Blob → Blob) :
    (xs : ObjList) → ∀ st : SerSt Unit,
      ∃ cs st2, serStashChunksOf (nilM dg) xs st = .ok (cs, st2)
  | .nil => fun st => ⟨_, _, rfl⟩
  | .cons h t => by
    intro st
    rw [serStashChunksOf_cons]
    obtain ⟨c, stc, hc⟩ := serStashChunk_nil_total dg h (serStash_nil_total dg h) st
    rw [hc]
    simp only [exceptBind_ok]
    obtain ⟨cs, st2, hcs⟩ := serStashChunksOf_nil_total dg t stc
    rw [hcs]
    simp only [exceptBind_ok]
    exact ⟨c :: cs, st2, rfl⟩
termination_by structural xs => xs

theorem serStashPairChunksOf_nil_total (dg : Blob → Blob) :
    (xs : ObjPairs) → ∀ st : SerSt Unit,
      ∃ cs st2, serStashPairChunksOf (nilM dg) xs st = .ok (cs, st2)
  | .nil => fun st => ⟨_, _, rfl⟩
  | .cons ko vo t => by
    intro st
    rw [serStashPairChunksOf_cons]
    obtain ⟨ck, st1, hck⟩ := serStashChunk_nil_total dg ko (serStash_nil_total dg ko) st
    rw [hck]
    simp only [exceptBind_ok]
    obtain ⟨cv, stv, hcv⟩ := serStashChunk_nil_total dg vo (serStash_nil_total dg vo) st1
    rw [hcv]
    simp only [exceptBind_ok]
    obtain ⟨cs, st2, hcs⟩ := serStashPairChunksOf_nil_total dg t stv
    rw [hcs]
    simp only [exceptBind_ok]
    exact ⟨(ck ++ cv) :: cs, st2, rfl⟩
termination_by structural xs => xs
end

/-- The Nil hash computes the digest of the canonical blob. -/
theorem hashNil_eq (dg : Blob → Blob) (o : Obj) (hwf : WFObj o) :
    hashNil dg o = .ok (dg (pureSer dg o)) := by
  obtain ⟨b, st2, hser⟩ := serStash_nil_total dg o ⟨[], ()⟩
  obtain ⟨hb, _⟩ := serStash_refine dg (nilM dg) (putKey_nilM dg) o hwf o ⟨[], ()⟩ b st2
    (subObjs_self o) (goodSeen_nil dg o) hser
  rw [hashNil, serStashToPy, hser]
  simp only [exceptBind_ok]
  rw [hb]
  rfl

theorem pureSer_length_pos (dg : Blob → Blob) (o : Obj) : 0 < (pureSer dg o).length := by
  cases o <;> simp [pureSer]

/-! ## Claim C2 -/

/-- C2: for every set, frozenset or dict value, the serializer encodes each
child to its chunk (for a dict, the key and value chunks concatenated), sorts
the chunks byte-lexicographically and concatenates them, so the hash computed
through the Nil store is independent of the container's iteration order: for
any two well-formed containers with the same children up to permutation the
keys agree (`hash({1,2,3}) = hash({3,2,1})`,
`hash({"a":1,"b":2}) = hash({"b":2,"a":1})`). -/
theorem c2_unordered_canonicalization (dg : Blob → Blob) :
    (∀ i j xs ys, WFObj (.pset i xs) → WFObj (.pset j ys) → xs.toList.Perm ys.toList →
      hashNil dg (.pset i xs) = hashNil dg (.pset j ys)) ∧
    (∀ i j xs ys, WFObj (.pfrozenset i xs) → WFObj (.pfrozenset j ys) →
      xs.toList.Perm ys.toList →
      hashNil dg (.pfrozenset i xs) = hashNil dg (.pfrozenset j ys)) ∧
    (∀ i j ps qs, WFObj (.pdict i ps) → WFObj (.pdict j qs) → ps.toList.Perm qs.toList →
      hashNil dg (.pdict i ps) = hashNil dg (.pdict j qs)) := by
  refine ⟨?_, ?_, ?_⟩
  · intro i j xs ys h1 h2 hperm
    rw [hashNil_eq dg _ h1, hashNil_eq dg _ h2]
    rw [pureSer, pureSer, pureChunksOf_eq, pureChunksOf_eq,
      sortChunks_eq_of_perm (hperm.map (pureChunk dg))]
  · intro i j xs ys h1 h2 hperm
    rw [hashNil_eq dg _ h1, hashNil_eq dg _ h2]
    rw [pureSer, pureSer, pureChunksOf_eq, pureChunksOf_eq,
      sortChunks_eq_of_perm (hperm.map (pureChunk dg))]
  · intro i j ps qs h1 h2 hperm
    rw [hashNil_eq dg _ h1, hashNil_eq dg _ h2]
    rw [pureSer, pureSer, purePairChunksOf_eq, purePairChunksOf_eq,
      sortChunks_eq_of_perm (hperm.map (fun p => pureChunk dg p.1 ++ pureChunk dg p.2))]

/-- C2 witness: the theorem applied to `{1,2,3}` vs `{3,2,1}` (set and
frozenset) and to `{"a":1, "b":2}` vs `{"b":2, "a":1}`. -/
theorem c2_witness :
    hashNil dg0 exSet123 = hashNil dg0 exSet321 ∧
    hashNil dg0 (.pfrozenset 10 (.cons (.pint 11 1) (.cons (.pint 12 2) (.cons (.pint 13 3) .nil)))) =
      hashNil dg0 (.pfrozenset 10 (.cons (.pint 13 3) (.cons (.pint 12 2) (.cons (.pint 11 1) .nil)))) ∧
    hashNil dg0 exDictAB = hashNil dg0 exDictBA :=
  ⟨(c2_unordered_canonicalization dg0).1 10 10
      (.cons (.pint 11 1) (.cons (.pint 12 2) (.cons (.pint 13 3) .nil)))
      (.cons (.pint 13 3) (.cons (.pint 12 2) (.cons (.pint 11 1) .nil)))
      (by decide) (by decide) (by decide),
   (c2_unordered_canonicalization dg0).2.1 10 10
      (.cons (.pint 11 1) (.cons (.pint 12 2) (.cons (.pint 13 3) .nil)))
      (.cons (.pint 13 3) (.cons (.pint 12 2) (.cons (.pint 11 1) .nil)))
      (by decide) (by decide) (by decide),
   (c2_unordered_canonicalization dg0).2.2 20 20
      (.cons (.pstr 21 [97]) (.pint 22 1) (.cons (.pstr 23 [98]) (.pint 24 2) .nil))
      (.cons (.pstr 23 [98]) (.pint 24 2) (.cons (.pstr 21 [97]) (.pint 22 1) .nil))
      (by decide) (by decide) (by decide)⟩

/-! ## Claim C4 -/

/-- C4: when `serialize_chunk` (`stash.rs` lines 206-228, over the RAM store)
encodes a child of a composite, the child is inlined — one length byte equal
to the blob length, followed by the blob — exactly when its canonical blob is
at most 255 bytes; it is framed `0x00` followed by the key exactly when the
blob exceeds 255 bytes, and on the first (promoting) visit the blob is stored
in the RAM store under its digest by `put_blob`. -/
theorem c4_promotion_threshold (dg : Blob → Blob) (root o : Obj) (st : SerSt RamSt)
    (c : Blob) (st2 : SerSt RamSt) (hwf : WFObj root) (hmem : o ∈ root.subObjs)
    (hgs : GoodSeen dg root st.seen)
    (hser : serStashChunk (ramM dg) o st = .ok (c, st2)) :
    ((pureSer dg o).length ≤ 255 → c = (pureSer dg o).length :: pureSer dg o) ∧
    (255 < (pureSer dg o).length → c = 0 :: dg (pureSer dg o)) ∧
    (c.head? = some 0 ↔ 255 < (pureSer dg o).length) ∧
    (255 < (pureSer dg o).length → seenLookup st.seen o.ptr = none →
      alookup st2.db (dg (pureSer dg o)) = some (pureSer dg o)) := by
  have IH : ∀ sta ba sta2, GoodSeen dg root sta.seen →
      serStash (ramM dg) o sta = .ok (ba, sta2) →
      ba = pureSer dg o ∧ GoodSeen dg root sta2.seen :=
    fun sta ba sta2 hga hsa => serStash_refine dg (ramM dg) (putKey_ramM dg) root hwf o
      sta ba sta2 hmem hga hsa
  obtain ⟨hc, _⟩ := serStashChunk_refine dg (ramM dg) (putKey_ramM dg) root hwf o hmem IH
    st c st2 hgs hser
  have hpos := pureSer_length_pos dg o
  refine ⟨?_, ?_, ?_, ?_⟩
  · intro hle
    rw [hc, pureChunk, if_pos hle]
  · intro hgt
    rw [hc, pureChunk, if_neg (by omega)]
  · constructor
    · intro hhead
      by_contra hgt
      rw [hc, pureChunk, if_pos (by omega)] at hhead
      simp only [List.head?_cons, Option.some.injEq] at hhead
      omega
    · intro hgt
      rw [hc, pureChunk, if_neg (by omega)]
      rfl
  · intro hgt hfresh
    rw [serStashChunk, hfresh] at hser
    cases hcall : serStash (ramM dg) o st with
    | error e =>
      rw [hcall] at hser
      simp at hser
    | ok p =>
      obtain ⟨b, st'⟩ := p
      rw [hcall] at hser
      simp only [exceptBind_ok] at hser
      obtain ⟨hb, _⟩ := IH st b st' hgs hcall
      rw [if_neg (by rw [hb]; omega)] at hser
      cases hput : ramPut dg st'.db b with
      | error e =>
        rw [show (ramM dg).putBlob st'.db b = ramPut dg st'.db b from rfl, hput] at hser
        simp at hser
      | ok q =>
        obtain ⟨k, db'⟩ := q
        rw [show (ramM dg).putBlob st'.db b = ramPut dg st'.db b from rfl, hput] at hser
        simp only [exceptBind_ok] at hser
        obtain ⟨_, hst2⟩ := by simpa using hser
        have hsto := ramPut_stores dg st'.db b k db' hput
        rw [← hst2]
        rw [hb] at hsto
        simpa using hsto

/-- C4 witness: the theorem applied to the integer object `5`, whose 2-byte
blob is inlined. -/
theorem c4_witness :
    [2, 1, 5] = (pureSer dg0 (.pint 2 5)).length :: pureSer dg0 (.pint 2 5) :=
  (c4_promotion_threshold dg0 (.pint 2 5) (.pint 2 5) ⟨[], []⟩ [2, 1, 5] ⟨[], []⟩
    (by decide) (by decide) (goodSeen_nil dg0 _) (by rfl)).1 (by decide)

/-! ## Claim C1 -/

/-- C1: the claim states that `load(dump(v, S), S)` is structurally equal to
`v` for the cited pair `serialize.rs::serialize` / `deserialize.rs::deserialize`
(the `PyRam::hash` / `PyRam::unhash` pair).  The code disagrees: `serialize`
stores a root blob that begins with the TRAVERSE token and ends with the
back-reference number stream, and `deserialize_chunk` has no arm for that
token, so every load of a dumped key returns the unknown-tag error
(`PyTypeError("cannot load object")`).  Evaluation at the failing input
`None` with a fresh RAM store: the dump succeeds, the load returns the
ordinary error. -/
theorem c1_ram_dump_then_load_fails :
    ∃ k st, pyRamHash dg0 (.pnone 0) [] = .ok (k, st) ∧
      pyRamUnhash 9 st k = .error .exc :=
  ⟨_, _, rfl, rfl⟩

/-! ## Claim C3 -/

/-- C3: the claim states that `hash(v)` (Nil store) returns the same key as
`dump(v, S)`.  The code disagrees: `nil.rs::hash` serializes through
`stash.rs` (root blob `[NONE]` for `None`), while `PyRam::hash` serializes
through `serialize.rs` (root blob `TRAVERSE ‖ 0x01 ‖ NONE ‖ stream`), so the
two keys differ at the input `None`. -/
theorem c3_nil_hash_and_ram_dump_keys_differ :
    ∃ kh kd st, hashNil dg0 (.pnone 0) = .ok kh ∧
      pyRamHash dg0 (.pnone 0) [] = .ok (kd, st) ∧ kh ≠ kd :=
  ⟨_, _, _, rfl, rfl, by decide⟩

/-! ## Claim C5 -/

set_option maxHeartbeats 2000000 in
set_option maxRecDepth 20000 in
/-- C5 counterexample: for `x = [1,2,3]` and `v = [x, x]` the claim asserts
that after dumping `v` exactly one LIST blob for `x` is stored and that `v`'s
blob holds two references to one key.  In the code `x` encodes to the 10-byte
blob `[LIST, 2,INT,1, 2,INT,2, 2,INT,3]`, far below the 255-byte promotion
threshold, so it is re-encoded inline twice (frames `10 ‖ blob`, never
`0x00 ‖ key`), and the store receives exactly one blob — the TRAVERSE root —
and no LIST blob for `x` at all.  Only the back-reference stream (final `4`,
the distance to the first visit of `x`) records the repetition. -/
theorem c5_small_shared_list_inlined_twice :
    serRsTop (ramM dg0) exVSmall [] =
      .ok ([16, 23, 5, 10, 5, 2, 1, 1, 2, 1, 2, 2, 1, 3, 10, 5, 2, 1, 1, 2, 1, 2, 2, 1, 3,
              0, 0, 0, 0, 0, 4],
        dg0 [16, 23, 5, 10, 5, 2, 1, 1, 2, 1, 2, 2, 1, 3, 10, 5, 2, 1, 1, 2, 1, 2, 2, 1, 3,
              0, 0, 0, 0, 0, 4],
        [(dg0 [16, 23, 5, 10, 5, 2, 1, 1, 2, 1, 2, 2, 1, 3, 10, 5, 2, 1, 1, 2, 1, 2, 2, 1, 3,
              0, 0, 0, 0, 0, 4],
          [16, 23, 5, 10, 5, 2, 1, 1, 2, 1, 2, 2, 1, 3, 10, 5, 2, 1, 1, 2, 1, 2, 2, 1, 3,
              0, 0, 0, 0, 0, 4])]) ∧
    pureSer dg0 exXSmall = [5, 2, 1, 1, 2, 1, 2, 2, 1, 3] := by
  constructor
  · simp [serRsTop, serRsChunk, serRsSeq, exVSmall, exXSmall, seenLookup, brLookup,
      ramM, ramPut, alookup, usizeEncode, usizeEncodeAux, intWriteTo, bitLength, bitLenAux,
      pyToBytes, toBytesBE, token.TRAVERSE, token.LIST, token.INT, Obj.ptr, dg0]
  · simp [pureSer, pureSeq, exXSmall, intWriteTo, bitLength, bitLenAux, pyToBytes,
      toBytesBE, token.LIST, token.INT]

set_option maxHeartbeats 4000000 in
set_option maxRecDepth 20000 in
/-- C5 amended: with a shared child over the promotion threshold —
`x = [b"A"*253]`, whose encoding `[LIST, 254, BYTES, 65 × 253]` is 256 bytes,
and `v = [x, x]` — the dump stores exactly one LIST blob for `x` (under its
digest), and `v`'s blob contains two `0x00`-framed references to that same key
(the second visit reads the key from the `seen` table instead of re-encoding);
the stored blobs are exactly `x`'s blob and the TRAVERSE root. -/
theorem c5_promoted_sharing :
    serRsTop (ramM dg0) exVBig [] =
      .ok (16 :: 67 :: 5 :: ((0 :: dg0 (5 :: 254 :: 2 :: exABytes)) ++
             ((0 :: dg0 (5 :: 254 :: 2 :: exABytes)) ++ [0, 0, 0, 2])),
        dg0 (16 :: 67 :: 5 :: ((0 :: dg0 (5 :: 254 :: 2 :: exABytes)) ++
             ((0 :: dg0 (5 :: 254 :: 2 :: exABytes)) ++ [0, 0, 0, 2]))),
        [(dg0 (5 :: 254 :: 2 :: exABytes), 5 :: 254 :: 2 :: exABytes),
         (dg0 (16 :: 67 :: 5 :: ((0 :: dg0 (5 :: 254 :: 2 :: exABytes)) ++
             ((0 :: dg0 (5 :: 254 :: 2 :: exABytes)) ++ [0, 0, 0, 2]))),
          16 :: 67 :: 5 :: ((0 :: dg0 (5 :: 254 :: 2 :: exABytes)) ++
             ((0 :: dg0 (5 :: 254 :: 2 :: exABytes)) ++ [0, 0, 0, 2])))]) ∧
    pureSer dg0 exXBig = 5 :: 254 :: 2 :: exABytes ∧
    (5 :: 254 :: 2 :: exABytes : List Nat).length = 256 := by
  refine ⟨?_, ?_, by simp [exABytes]⟩
  · simp [serRsTop, serRsChunk, serRsSeq, exVBig, exXBig, exABytes, seenLookup, brLookup,
      ramM, ramPut, alookup, usizeEncode, usizeEncodeAux,
      token.TRAVERSE, token.LIST, token.BYTES, Obj.ptr, dg0]
  · simp [pureSer, pureSeq, exXBig, exABytes, token.LIST, token.BYTES, dg0]

/-! ## Claim C6 -/

set_option maxRecDepth 8000 in
/-- C6 counterexample: the claim (for the cited `serialize.rs::serialize`)
states that `dump(None)` produces the one-byte root blob `[NONE]` and the key
`digest([NONE])`.  The code wraps the root chunk in the TRAVERSE envelope and
appends the back-reference stream: the stored root blob is
`[TRAVERSE, 0x01, NONE, 0x00]` and the key is its digest, not
`digest([NONE])`. -/
theorem c6_ram_dump_none_root_is_traverse_envelope :
    ∃ v k st, serRsTop (ramM dg0) (.pnone 0) [] = .ok (v, k, st) ∧
      v = [token.TRAVERSE, 1, token.NONE, 0] ∧
      v ≠ [token.NONE] ∧ k ≠ dg0 [token.NONE] :=
  ⟨_, _, _, rfl, rfl, by decide, by decide⟩

/-- C6 amended: through the stash serializer — `hash` (`db/nil.rs`) and the
`dumps` of `db/sled.rs` / `db/lsm_tree.rs` — dumping `None` produces exactly
the one-byte root blob `[NONE]`, stores it under `digest([NONE])` and returns
that key, for every digest function. -/
theorem c6_stash_dump_none_single_byte (dg : Blob → Blob) :
    hashNil dg (.pnone 0) = .ok (dg [token.NONE]) ∧
    serStashToPy (trustM dg) (.pnone 0) [] =
      .ok (dg [token.NONE], [(dg [token.NONE], [token.NONE])]) :=
  ⟨rfl, rfl⟩

/-! ## Claim C10 -/

theorem usizeEncode_zero : usizeEncode 0 = [0] := rfl

theorem flatten_usizeEncode_replicate (n : Nat) :
    ((List.replicate n (0 : Nat)).map usizeEncode).flatten = List.replicate n 0 := by
  induction n with
  | zero => rfl
  | succ m ih => simp [List.replicate_succ, usizeEncode_zero, ih]

theorem ptr_mem_ptrs (o : Obj) : o.ptr ∈ o.ptrs :=
  List.mem_map_of_mem Obj.ptr (subObjs_self o)

theorem brLookup_cons_ne (t : List (Nat × Nat)) (q e p : Nat) (h : q ≠ p) :
    brLookup ((q, e) :: t) p = brLookup t p := by
  simp [brLookup, h]

theorem seenLookup_cons_ne (t : List (Nat × Blob)) (q : Nat) (k : Blob) (p : Nat)
    (h : q ≠ p) : seenLookup ((q, k) :: t) p = seenLookup t p := by
  simp [seenLookup, h]

/-- The inline-or-promote postlude of `serialize_chunk` (`src/serialize.rs`
lines 289-296) leaves the back-reference state untouched and only extends
`seen` with the serialized object's own pointer. -/
theorem serRsFrame {σ : Type} (M : MapOps σ) (q : Nat) (b : Blob) (st1 : RsSt σ)
    (c : Blob) (st2 : RsSt σ)
    (h : (if b.length ≤ 255 then Except.ok (b.length :: b, st1)
          else (do
            let (k, db') ← M.putBlob st1.db b
            Except.ok (0 :: k, { st1 with seen := (q, k) :: st1.seen, db := db' }) :
              Except MapErr (Blob × RsSt σ))) = Except.ok (c, st2)) :
    st2.br = st1.br ∧ st2.brMap = st1.brMap ∧
    ∀ p, p ≠ q → seenLookup st2.seen p = seenLookup st1.seen p := by
  by_cases hle : b.length ≤ 255
  · rw [if_pos hle] at h
    obtain ⟨hc, hst⟩ := by simpa using h
    subst hst
    exact ⟨rfl, rfl, fun p _ => rfl⟩
  · rw [if_neg hle] at h
    cases hput : M.putBlob st1.db b with
    | error e => rw [hput] at h; simp at h
    | ok kdb =>
      obtain ⟨k0, db0⟩ := kdb
      rw [hput] at h
      simp only [exceptBind_ok] at h
      obtain ⟨hc, hst⟩ := by simpa using h
      subst hst
      refine ⟨rfl, rfl, fun p hp => ?_⟩
      exact seenLookup_cons_ne _ _ _ _ (Ne.symm hp)

mutual
/-- On a value without unordered containers whose subobject pointers are
pairwise distinct and all unvisited, `serialize_chunk` of `src/serialize.rs`
appends exactly one `0` back-reference entry per subobject and touches no
other pointer's bookkeeping. -/
theorem serRsChunk_fresh {σ : Type} (M : MapOps σ) :
    (o : Obj) → ∀ st c st2, o.simple = true → o.ptrs.Nodup →
      (∀ p ∈ o.ptrs, brLookup st.brMap p = none ∧ seenLookup st.seen p = none) →
      serRsChunk M true o st = .ok (c, st2) →
      st2.br = st.br ++ List.replicate o.count 0 ∧
      ∀ p, p ∉ o.ptrs →
        brLookup st2.brMap p = brLookup st.brMap p ∧
        seenLookup st2.seen p = seenLookup st.seen p
  | .pstr i s => by
    intro st c st2 _ _ hf hser
    obtain ⟨hbr, hsn⟩ := hf _ (ptr_mem_ptrs (.pstr i s))
    simp only [Obj.ptr] at hbr hsn
    simp only [serRsChunk, Obj.ptr, hbr, hsn, exceptBind_ok, reduceIte] at hser
    obtain ⟨h1, h2, h3⟩ := serRsFrame M i _ _ c st2 hser
    constructor
    · simpa [Obj.count] using h1
    · intro p hp
      have hpi : p ≠ i := by
        intro he
        subst he
        exact hp (ptr_mem_ptrs (Obj.pstr p s))
      constructor
      · rw [h2]
        exact brLookup_cons_ne _ _ _ _ (Ne.symm hpi)
      · exact h3 p hpi
  | .pbytearray i s => by
    intro st c st2 _ _ hf hser
    obtain ⟨hbr, hsn⟩ := hf _ (ptr_mem_ptrs (.pbytearray i s))
    simp only [Obj.ptr] at hbr hsn
    simp only [serRsChunk, Obj.ptr, hbr, hsn, exceptBind_ok, reduceIte] at hser
    obtain ⟨h1, h2, h3⟩ := serRsFrame M i _ _ c st2 hser
    constructor
    · simpa [Obj.count] using h1
    · intro p hp
      have hpi : p ≠ i := by
        intro he
        subst he
        exact hp (ptr_mem_ptrs (Obj.pbytearray p s))
      constructor
      · rw [h2]
        exact brLookup_cons_ne _ _ _ _ (Ne.symm hpi)
      · exact h3 p hpi
  | .pbytes i s => by
    intro st c st2 _ _ hf hser
    obtain ⟨hbr, hsn⟩ := hf _ (ptr_mem_ptrs (.pbytes i s))
    simp only [Obj.ptr] at hbr hsn
    simp only [serRsChunk, Obj.ptr, hbr, hsn, exceptBind_ok, reduceIte] at hser
    obtain ⟨h1, h2, h3⟩ := serRsFrame M i _ _ c st2 hser
    constructor
    · simpa [Obj.count] using h1
    · intro p hp
      have hpi : p ≠ i := by
        intro he
        subst he
        exact hp (ptr_mem_ptrs (Obj.pbytes p s))
      constructor
      · rw [h2]
        exact brLookup_cons_ne _ _ _ _ (Ne.symm hpi)
      · exact h3 p hpi
  | .pint i n => by
    intro st c st2 _ _ hf hser
    obtain ⟨hbr, hsn⟩ := hf _ (ptr_mem_ptrs (.pint i n))
    simp only [Obj.ptr] at hbr hsn
    simp only [serRsChunk, Obj.ptr, hbr, hsn, exceptBind_ok, reduceIte] at hser
    obtain ⟨h1, h2, h3⟩ := serRsFrame M i _ _ c st2 hser
    constructor
    · simpa [Obj.count] using h1
    · intro p hp
      have hpi : p ≠ i := by
        intro he
        subst he
        exact hp (ptr_mem_ptrs (Obj.pint p n))
      constructor
      · rw [h2]
        exact brLookup_cons_ne _ _ _ _ (Ne.symm hpi)
      · exact h3 p hpi
  | .pfloat i s => by
    intro st c st2 _ _ hf hser
    obtain ⟨hbr, hsn⟩ := hf _ (ptr_mem_ptrs (.pfloat i s))
    simp only [Obj.ptr] at hbr hsn
    simp only [serRsChunk, Obj.ptr, hbr, hsn, exceptBind_ok, reduceIte] at hser
    obtain ⟨h1, h2, h3⟩ := serRsFrame M i _ _ c st2 hser
    constructor
    · simpa [Obj.count] using h1
    · intro p hp
      have hpi : p ≠ i := by
        intro he
        subst he
        exact hp (ptr_mem_ptrs (Obj.pfloat p s))
      constructor
      · rw [h2]
        exact brLookup_cons_ne _ _ _ _ (Ne.symm hpi)
      · exact h3 p hpi
  | .pnone i => by
    intro st c st2 _ _ hf hser
    obtain ⟨hbr, hsn⟩ := hf _ (ptr_mem_ptrs (.pnone i))
    simp only [Obj.ptr] at hbr hsn
    simp only [serRsChunk, Obj.ptr, hbr, hsn, exceptBind_ok, reduceIte] at hser
    obtain ⟨h1, h2, h3⟩ := serRsFrame M i _ _ c st2 hser
    constructor
    · simpa [Obj.count] using h1
    · intro p hp
      have hpi : p ≠ i := by
        intro he
        subst he
        exact hp (ptr_mem_ptrs (Obj.pnone p))
      constructor
      · rw [h2]
        exact brLookup_cons_ne _ _ _ _ (Ne.symm hpi)
      · exact h3 p hpi
  | .ptrue i => by
    intro st c st2 _ _ hf hser
    obtain ⟨hbr, hsn⟩ := hf _ (ptr_mem_ptrs (.ptrue i))
    simp only [Obj.ptr] at hbr hsn
    simp only [serRsChunk, Obj.ptr, hbr, hsn, exceptBind_ok, reduceIte] at hser
    obtain ⟨h1, h2, h3⟩ := serRsFrame M i _ _ c st2 hser
    constructor
    · simpa [Obj.count] using h1
    · intro p hp
      have hpi : p ≠ i := by
        intro he
        subst he
        exact hp (ptr_mem_ptrs (Obj.ptrue p))
      constructor
      · rw [h2]
        exact brLookup_cons_ne _ _ _ _ (Ne.symm hpi)
      · exact h3 p hpi
  | .pfalse i => by
    intro st c st2 _ _ hf hser
    obtain ⟨hbr, hsn⟩ := hf _ (ptr_mem_ptrs (.pfalse i))
    simp only [Obj.ptr] at hbr hsn
    simp only [serRsChunk, Obj.ptr, hbr, hsn, exceptBind_ok, reduceIte] at hser
    obtain ⟨h1, h2, h3⟩ := serRsFrame M i _ _ c st2 hser
    constructor
    · simpa [Obj.count] using h1
    · intro p hp
      have hpi : p ≠ i := by
        intro he
        subst he
        exact hp (ptr_mem_ptrs (Obj.pfalse p))
      constructor
      · rw [h2]
        exact brLookup_cons_ne _ _ _ _ (Ne.symm hpi)
      · exact h3 p hpi
  | .plist i xs => by
    intro st c st2 hs hn hf hser
    obtain ⟨hbr, hsn⟩ := hf _ (ptr_mem_ptrs (.plist i xs))
    simp only [Obj.ptr] at hbr hsn
    simp only [serRsChunk, Obj.ptr, hbr, hsn, exceptBind_ok, reduceIte] at hser
    have hps : (Obj.plist i xs).ptrs = i :: xs.subObjs.map Obj.ptr := by
      simp [Obj.ptrs, Obj.subObjs, Obj.ptr]
    rw [hps] at hn hf
    have hnx : (xs.subObjs.map Obj.ptr).Nodup := (List.nodup_cons.mp hn).2
    have hix : i ∉ xs.subObjs.map Obj.ptr := (List.nodup_cons.mp hn).1
    cases hcall : serRsSeq M true xs [token.LIST]
        (RsSt.mk (st.br ++ [0]) ((i, st.brMap.length) :: st.brMap) st.seen st.db) with
    | error e => rw [hcall] at hser; simp at hser
    | ok p =>
      obtain ⟨b, st1⟩ := p
      rw [hcall] at hser
      simp only [exceptBind_ok] at hser
      have hsx : xs.simple = true := by simpa [Obj.simple] using hs
      have hfx : ∀ p ∈ xs.subObjs.map Obj.ptr,
          brLookup (RsSt.mk (st.br ++ [0]) ((i, st.brMap.length) :: st.brMap)
            st.seen st.db).brMap p = none ∧
          seenLookup (RsSt.mk (st.br ++ [0]) ((i, st.brMap.length) :: st.brMap)
            st.seen st.db).seen p = none := by
        intro p hp
        have hfp := hf p (List.mem_cons_of_mem _ hp)
        have hip : i ≠ p := by
          intro he
          subst he
          exact hix hp
        refine ⟨?_, hfp.2⟩
        show brLookup ((i, st.brMap.length) :: st.brMap) p = none
        rw [brLookup_cons_ne _ _ _ _ hip]
        exact hfp.1
      obtain ⟨hbr1, htr1⟩ := serRsSeq_fresh M xs [token.LIST]
        (RsSt.mk (st.br ++ [0]) ((i, st.brMap.length) :: st.brMap) st.seen st.db)
        b st1 hsx hnx hfx hcall
      obtain ⟨h1, h2, h3⟩ := serRsFrame M i b st1 c st2 hser
      constructor
      · rw [h1, hbr1]
        show (st.br ++ [0]) ++ List.replicate xs.count 0 =
          st.br ++ List.replicate (1 + xs.count) 0
        rw [List.replicate_add, List.replicate_one, List.append_assoc]
      · intro p hp
        rw [hps] at hp
        have hpi : p ≠ i := by
          intro he
          subst he
          exact hp (List.mem_cons_self _ _)
        have hpx : p ∉ xs.subObjs.map Obj.ptr := fun hx => hp (List.mem_cons_of_mem _ hx)
        constructor
        · rw [h2, (htr1 p hpx).1]
          exact brLookup_cons_ne _ _ _ _ (Ne.symm hpi)
        · rw [h3 p hpi]
          exact (htr1 p hpx).2
  | .ptuple i xs => by
    intro st c st2 hs hn hf hser
    obtain ⟨hbr, hsn⟩ := hf _ (ptr_mem_ptrs (.ptuple i xs))
    simp only [Obj.ptr] at hbr hsn
    simp only [serRsChunk, Obj.ptr, hbr, hsn, exceptBind_ok, reduceIte] at hser
    have hps : (Obj.ptuple i xs).ptrs = i :: xs.subObjs.map Obj.ptr := by
      simp [Obj.ptrs, Obj.subObjs, Obj.ptr]
    rw [hps] at hn hf
    have hnx : (xs.subObjs.map Obj.ptr).Nodup := (List.nodup_cons.mp hn).2
    have hix : i ∉ xs.subObjs.map Obj.ptr := (List.nodup_cons.mp hn).1
    cases hcall : serRsSeq M true xs [token.TUPLE]
        (RsSt.mk (st.br ++ [0]) ((i, st.brMap.length) :: st.brMap) st.seen st.db) with
    | error e => rw [hcall] at hser; simp at hser
    | ok p =>
      obtain ⟨b, st1⟩ := p
      rw [hcall] at hser
      simp only [exceptBind_ok] at hser
      have hsx : xs.simple = true := by simpa [Obj.simple] using hs
      have hfx : ∀ p ∈ xs.subObjs.map Obj.ptr,
          brLookup (RsSt.mk (st.br ++ [0]) ((i, st.brMap.length) :: st.brMap)
            st.seen st.db).brMap p = none ∧
          seenLookup (RsSt.mk (st.br ++ [0]) ((i, st.brMap.length) :: st.brMap)
            st.seen st.db).seen p = none := by
        intro p hp
        have hfp := hf p (List.mem_cons_of_mem _ hp)
        have hip : i ≠ p := by
          intro he
          subst he
          exact hix hp
        refine ⟨?_, hfp.2⟩
        show brLookup ((i, st.brMap.length) :: st.brMap) p = none
        rw [brLookup_cons_ne _ _ _ _ hip]
        exact hfp.1
      obtain ⟨hbr1, htr1⟩ := serRsSeq_fresh M xs [token.TUPLE]
        (RsSt.mk (st.br ++ [0]) ((i, st.brMap.length) :: st.brMap) st.seen st.db)
        b st1 hsx hnx hfx hcall
      obtain ⟨h1, h2, h3⟩ := serRsFrame M i b st1 c st2 hser
      constructor
      · rw [h1, hbr1]
        show (st.br ++ [0]) ++ List.replicate xs.count 0 =
          st.br ++ List.replicate (1 + xs.count) 0
        rw [List.replicate_add, List.replicate_one, List.append_assoc]
      · intro p hp
        rw [hps] at hp
        have hpi : p ≠ i := by
          intro he
          subst he
          exact hp (List.mem_cons_self _ _)
        have hpx : p ∉ xs.subObjs.map Obj.ptr := fun hx => hp (List.mem_cons_of_mem _ hx)
        constructor
        · rw [h2, (htr1 p hpx).1]
          exact brLookup_cons_ne _ _ _ _ (Ne.symm hpi)
        · rw [h3 p hpi]
          exact (htr1 p hpx).2
  | .pset i xs => by
    intro st c st2 hs _ _ _
    simp [Obj.simple] at hs
  | .pfrozenset i xs => by
    intro st c st2 hs _ _ _
    simp [Obj.simple] at hs
  | .pdict i xs => by
    intro st c st2 hs _ _ _
    simp [Obj.simple] at hs
termination_by structural o => o

/-- The LIST/TUPLE iteration of `src/serialize.rs` on fresh, alias-free,
simple children: one `0` back-reference entry per subobject, no other
pointer's bookkeeping touched. -/
theorem serRsSeq_fresh {σ : Type} (M : MapOps σ) :
    (xs : ObjList) → ∀ v st r st2, xs.simple = true →
      (xs.subObjs.map Obj.ptr).Nodup →
      (∀ p ∈ xs.subObjs.map Obj.ptr,
        brLookup st.brMap p = none ∧ seenLookup st.seen p = none) →
      serRsSeq M true xs v st = .ok (r, st2) →
      st2.br = st.br ++ List.replicate xs.count 0 ∧
      ∀ p, p ∉ xs.subObjs.map Obj.ptr →
        brLookup st2.brMap p = brLookup st.brMap p ∧
        seenLookup st2.seen p = seenLookup st.seen p
  | .nil => by
    intro v st r st2 _ _ _ hser
    simp only [serRsSeq] at hser
    obtain ⟨hr, hst⟩ := by simpa using hser
    subst hst
    exact ⟨by simp [ObjList.count], fun p _ => ⟨rfl, rfl⟩⟩
  | .cons h t => by
    intro v st r st2 hs hn hf hser
    simp only [serRsSeq] at hser
    have hsub : (ObjList.cons h t).subObjs = h.subObjs ++ t.subObjs := rfl
    rw [hsub, List.map_append] at hn hf
    have hnh : (h.subObjs.map Obj.ptr).Nodup := hn.of_append_left
    have hnt : (t.subObjs.map Obj.ptr).Nodup := hn.of_append_right
    have hdisj := List.disjoint_of_nodup_append hn
    simp only [ObjList.simple, Bool.and_eq_true] at hs
    obtain ⟨hsh, hst'⟩ := hs
    cases hc : serRsChunk M true h st with
    | error e => rw [hc] at hser; simp at hser
    | ok p =>
      obtain ⟨cc, st1⟩ := p
      rw [hc] at hser
      simp only [exceptBind_ok] at hser
      have hfh : ∀ p ∈ h.subObjs.map Obj.ptr,
          brLookup st.brMap p = none ∧ seenLookup st.seen p = none :=
        fun p hp => hf p (List.mem_append_left _ hp)
      obtain ⟨hbrh, htrh⟩ := serRsChunk_fresh M h st cc st1 hsh hnh hfh hc
      have hft : ∀ p ∈ t.subObjs.map Obj.ptr,
          brLookup st1.brMap p = none ∧ seenLookup st1.seen p = none := by
        intro p hp
        have hph : p ∉ h.subObjs.map Obj.ptr := fun hx => hdisj hx hp
        obtain ⟨hb2, hs2⟩ := htrh p hph
        have hfp := hf p (List.mem_append_right _ hp)
        exact ⟨hb2.trans hfp.1, hs2.trans hfp.2⟩
      obtain ⟨hbrt, htrt⟩ := serRsSeq_fresh M t (v ++ cc) st1 r st2 hst' hnt hft hser
      constructor
      · rw [hbrt, hbrh]
        show (st.br ++ List.replicate h.count 0) ++ List.replicate t.count 0 =
          st.br ++ List.replicate (h.count + t.count) 0
        rw [List.replicate_add, List.append_assoc]
      · intro p hp
        rw [hsub, List.map_append, List.mem_append] at hp
        have hph : p ∉ h.subObjs.map Obj.ptr := fun hx => hp (Or.inl hx)
        have hpt : p ∉ t.subObjs.map Obj.ptr := fun hx => hp (Or.inr hx)
        constructor
        · rw [(htrt p hpt).1]
          exact (htrh p hph).1
        · rw [(htrt p hpt).2]
          exact (htrh p hph).2
termination_by structural xs => xs
end

set_option maxHeartbeats 2000000 in
set_option maxRecDepth 20000 in
/-- C10: the root blob `serialize` (`src/serialize.rs` lines 13-35) stores is
one leading TRAVERSE tag byte, then the chunk encoding of the value, then the
trailing stream of variable-length-encoded back-reference numbers with one
entry per visited object.  Proved in general for alias-free values without
unordered containers (each of the `count` entries is `0`, a first visit); the
repeat entry and the sorted-position entries are exhibited concretely:
for `v = [x, x]` with `x = [1,2,3]` the trailing stream is `0,0,0,0,0,4` —
the final entry is the back-distance `4` from the repeat visit of `x` to its
first visit — and for the set `{3,2,1}` the stream is `0, 2,1,0, 0,0,0` — the
root's entry, then the three reserved element slots holding each element's
position after byte-lexicographic sorting of the chunks (`3 ↦ 2`, `2 ↦ 1`,
`1 ↦ 0`), then the elements' own first-visit entries. -/
theorem c10_traverse_root_format :
    (∀ {σ : Type} (M : MapOps σ) (o : Obj) (db : σ) (v k : Blob) (db2 : σ),
        o.simple = true → o.ptrs.Nodup → serRsTop M o db = .ok (v, k, db2) →
        ∃ c st1, serRsChunk M true o ⟨[], [], [], db⟩ = .ok (c, st1) ∧
          v = token.TRAVERSE :: c ++ List.replicate o.count 0) ∧
    serRsTop (ramM dg0) exVSmall [] =
      .ok ([16, 23, 5, 10, 5, 2, 1, 1, 2, 1, 2, 2, 1, 3, 10, 5, 2, 1, 1, 2, 1, 2, 2, 1, 3]
             ++ [0, 0, 0, 0, 0, 4],
        dg0 ([16, 23, 5, 10, 5, 2, 1, 1, 2, 1, 2, 2, 1, 3, 10, 5, 2, 1, 1, 2, 1, 2, 2, 1, 3]
             ++ [0, 0, 0, 0, 0, 4]),
        [(dg0 ([16, 23, 5, 10, 5, 2, 1, 1, 2, 1, 2, 2, 1, 3, 10, 5, 2, 1, 1, 2, 1, 2, 2, 1, 3]
             ++ [0, 0, 0, 0, 0, 4]),
          [16, 23, 5, 10, 5, 2, 1, 1, 2, 1, 2, 2, 1, 3, 10, 5, 2, 1, 1, 2, 1, 2, 2, 1, 3]
             ++ [0, 0, 0, 0, 0, 4])]) ∧
    serRsTop (ramM dg0) exSet321 [] =
      .ok ([16, 10, 7, 2, 1, 1, 2, 1, 2, 2, 1, 3] ++ ([0] ++ [2, 1, 0] ++ [0, 0, 0]),
        dg0 ([16, 10, 7, 2, 1, 1, 2, 1, 2, 2, 1, 3] ++ ([0] ++ [2, 1, 0] ++ [0, 0, 0])),
        [(dg0 ([16, 10, 7, 2, 1, 1, 2, 1, 2, 2, 1, 3] ++ ([0] ++ [2, 1, 0] ++ [0, 0, 0])),
          [16, 10, 7, 2, 1, 1, 2, 1, 2, 2, 1, 3] ++ ([0] ++ [2, 1, 0] ++ [0, 0, 0]))]) := by
  refine ⟨?_, ?_, ?_⟩
  · intro σ M o db v k db2 hs hn htop
    rw [serRsTop] at htop
    cases hc : serRsChunk M true o ⟨[], [], [], db⟩ with
    | error e => rw [hc] at htop; simp at htop
    | ok p =>
      obtain ⟨c, st1⟩ := p
      rw [hc] at htop
      simp only [exceptBind_ok] at htop
      obtain ⟨hbr1, _⟩ := serRsChunk_fresh M o ⟨[], [], [], db⟩ c st1 hs hn
        (fun p _ => ⟨rfl, rfl⟩) hc
      have hbr1n : st1.br = List.replicate o.count 0 := by simpa using hbr1
      cases hput : M.putBlob st1.db
          (token.TRAVERSE :: c ++ (st1.br.map usizeEncode).flatten) with
      | error e => rw [hput] at htop; simp at htop
      | ok q =>
        obtain ⟨k2, db2x⟩ := q
        rw [hput] at htop
        simp only [exceptBind_ok] at htop
        obtain ⟨hv, _, _⟩ := by simpa using htop
        refine ⟨c, st1, rfl, ?_⟩
        rw [← hv, hbr1n, flatten_usizeEncode_replicate, List.cons_append]
  · simp [serRsTop, serRsChunk, serRsSeq, exVSmall, exXSmall, seenLookup, brLookup,
      ramM, ramPut, alookup, usizeEncode, usizeEncodeAux, intWriteTo, bitLength, bitLenAux,
      pyToBytes, toBytesBE, token.TRAVERSE, token.LIST, token.INT, Obj.ptr, dg0]
  · rfl

/-- C10 witness: the general clause evaluated at `None` with a fresh RAM
store — the stored root blob `[TRAVERSE, 0x01, NONE, 0x00]` is the TRAVERSE
tag, the root chunk and one `0` stream entry for the single visited object. -/
theorem c10_witness :
    ∃ c st1, serRsChunk (ramM dg0) true (Obj.pnone 0) ⟨[], [], [], ([] : RamSt)⟩ =
        .ok (c, st1) ∧
      ([16, 1, 10, 0] : Blob) =
        token.TRAVERSE :: c ++ List.replicate (Obj.pnone 0).count 0 :=
  c10_traverse_root_format.1 (ramM dg0) (Obj.pnone 0) [] [16, 1, 10, 0]
    (dg0 [16, 1, 10, 0]) [(dg0 [16, 1, 10, 0], [16, 1, 10, 0])]
    (by decide) (by decide) (by rfl)

end Stash
